import Mathlib

/-!
# Verification of the jsurl codec (`src/lib.rs`)

A shallow embedding of the jsurl serializer/deserializer.  Rust `String`s are
sequences of Unicode scalar values; we model them as `List Char` (`Str`).
`serde_json::Value` (with the `preserve_order` feature, as witnessed by the
repository's own insertion-order test expectations) is modelled by `JValue`
with objects as insertion-ordered association lists.  `serde_json::Number`
is the three-variant sum `PosInt (u64) / NegInt (i64) / Float (f64)`;
the `f64` payload is modelled by the two observations the codec uses,
finiteness and its decimal rendering (`F64`).
-/

namespace Jsurl

/-- Rust `String` / `&str`, viewed as its sequence of Unicode scalar values. -/
abbrev Str := List Char

/-- Model of a Rust `f64` as observed by this codec: the codec only ever asks
`is_finite()` and `to_string()` of a float, so the model carries exactly those
two observations.  (Floating-point arithmetic itself is out of scope; the spec
excludes the host number-formatting routines from the core.) -/
structure F64 where
  isFinite : Bool
  toStr : Str
  deriving DecidableEq, Repr

/-- Model of `serde_json::Number` (default features): an unsigned 64-bit
integer, a negative signed 64-bit integer, or a double.  The `u64`/`i64`
range restrictions are imposed as hypotheses where theorems need them. -/
inductive JNum where
  | posInt (n : Nat)
  | negInt (n : Int)
  | float (f : F64)
  deriving DecidableEq, Repr

/-- Model of `serde_json::Value` with the `preserve_order` feature:
objects are insertion-ordered association lists. -/
inductive JValue where
  | null
  | bool (b : Bool)
  | num (n : JNum)
  | str (s : Str)
  | arr (elems : List JValue)
  | obj (entries : List (Str × JValue))
  deriving Repr

/-- Structural induction for the nested inductive `JValue`, with membership
hypotheses for container elements. -/
theorem JValue.myInduction (motive : JValue → Prop)
    (hnull : motive .null) (hbool : ∀ b, motive (.bool b))
    (hnum : ∀ n, motive (.num n)) (hstr : ∀ s, motive (.str s))
    (harr : ∀ xs, (∀ v ∈ xs, motive v) → motive (.arr xs))
    (hobj : ∀ es, (∀ kv ∈ es, motive kv.2) → motive (.obj es)) :
    ∀ v, motive v
  | .null => hnull
  | .bool b => hbool b
  | .num n => hnum n
  | .str s => hstr s
  | .arr xs => harr xs (fun u hu =>
      JValue.myInduction motive hnull hbool hnum hstr harr hobj u)
  | .obj es => hobj es (fun kv hkv =>
      JValue.myInduction motive hnull hbool hnum hstr harr hobj kv.2)
  termination_by v => sizeOf v
  decreasing_by
  · have := List.sizeOf_lt_of_mem hu
    simp only [JValue.arr.sizeOf_spec]
    omega
  · have h1 := List.sizeOf_lt_of_mem hkv
    have h2 : sizeOf kv.2 < sizeOf kv := by
      obtain ⟨k, v'⟩ := kv
      simp only [Prod.mk.sizeOf_spec]
      omega
    simp only [JValue.obj.sizeOf_spec]
    omega

mutual

/-- Boolean equality on `JValue` (the nested inductive defeats automatic
`DecidableEq` derivation, so it is built by hand). -/
def beqV : JValue → JValue → Bool
  | .null, .null => true
  | .bool a, .bool b => decide (a = b)
  | .num a, .num b => decide (a = b)
  | .str a, .str b => decide (a = b)
  | .arr a, .arr b => beqL a b
  | .obj a, .obj b => beqO a b
  | _, _ => false

def beqL : List JValue → List JValue → Bool
  | [], [] => true
  | a :: as, b :: bs => beqV a b && beqL as bs
  | _, _ => false

def beqO : List (Str × JValue) → List (Str × JValue) → Bool
  | [], [] => true
  | (k, v) :: as, (k2, v2) :: bs => decide (k = k2) && beqV v v2 && beqO as bs
  | _, _ => false

end

theorem beqV_iff : ∀ a b, beqV a b = true ↔ a = b := by
  intro a
  induction a using JValue.myInduction with
  | hnull => intro b; cases b <;> simp [beqV]
  | hbool x => intro b; cases b <;> simp [beqV]
  | hnum x => intro b; cases b <;> simp [beqV]
  | hstr x => intro b; cases b <;> simp [beqV]
  | harr xs ih =>
    intro b
    cases b <;> simp only [beqV] <;> try simp
    rename_i ys
    constructor
    · intro h
      congr 1
      induction xs generalizing ys with
      | nil => cases ys <;> simp_all [beqL]
      | cons x xs ihl =>
        cases ys with
        | nil => simp [beqL] at h
        | cons y ys =>
          simp only [beqL, Bool.and_eq_true] at h
          have hx : x = y := (ih x (by simp)) y |>.mp h.1
          have : xs = ys := by
            have := ihl (fun v hv => ih v (by simp [hv])) ys h.2
            simpa using this
          simp [hx, this]
    · rintro rfl
      induction xs with
      | nil => simp [beqL]
      | cons x xs ihl =>
        simp only [beqL, Bool.and_eq_true]
        exact ⟨(ih x (by simp) x).mpr rfl, ihl (fun v hv => ih v (by simp [hv]))⟩
  | hobj es ih =>
    intro b
    cases b <;> simp only [beqV] <;> try simp
    rename_i fs
    constructor
    · intro h
      congr 1
      induction es generalizing fs with
      | nil => cases fs <;> simp_all [beqO]
      | cons kv es ihl =>
        obtain ⟨k, v⟩ := kv
        cases fs with
        | nil => simp [beqO] at h
        | cons kv2 fs =>
          obtain ⟨k2, v2⟩ := kv2
          simp only [beqO, Bool.and_eq_true, decide_eq_true_eq] at h
          have hv : v = v2 := (ih (k, v) (by simp)) v2 |>.mp h.1.2
          have : es = fs := by
            have := ihl (fun kv hkv => ih kv (by simp [hkv])) fs h.2
            simpa using this
          simp [h.1.1, hv, this]
    · rintro rfl
      induction es with
      | nil => simp [beqO]
      | cons kv es ihl =>
        obtain ⟨k, v⟩ := kv
        simp only [beqO, Bool.and_eq_true, decide_eq_true_eq]
        exact ⟨⟨by trivial, (ih (k, v) (by simp) v).mpr rfl⟩,
          ihl (fun kv hkv => ih kv (by simp [hkv]))⟩

instance : DecidableEq JValue := fun a b => decidable_of_iff _ (beqV_iff a b)

/-- `DeserializeError` from `src/lib.rs` (string payloads as `Str`). -/
inductive DeserializeError where
  | invalidValue (s : Str)
  | invalidEscapeSequence (s : Str)
  | unexpectedCharacter (actual : Char) (expected : Option Char)
  | unexpectedEnd
  deriving DecidableEq, Repr

/-- Outcome of running a fallible piece of the Rust code: a value, an `Err`,
a Rust panic (`unwrap` on `None`), or exhaustion of the recursion fuel used
by the embedding (a model artifact: every theorem below that needs a
successful parse supplies fuel exceeding the input length, which the proofs
show never runs out). -/
inductive PResult (α : Type) where
  | ok (a : α)
  | fail (e : DeserializeError)
  | panicked
  | outOfFuel
  deriving DecidableEq, Repr

/-! ## Hex formatting (Rust `format!("{:02x}", _)` / `format!("{:04x}", _)`) -/

/-- Lowercase hexadecimal digit. -/
def hexDigit (n : Nat) : Char := Char.ofNat (if n < 10 then 48 + n else 87 + n)

/-- Uppercase hexadecimal digit (used only to state the uppercase-acceptance
property of the decoder; the encoder never emits these). -/
def hexDigitUpper (n : Nat) : Char := Char.ofNat (if n < 10 then 48 + n else 55 + n)

/-- Minimal-length lowercase hex rendering of `n` (big-endian, `0` for zero),
as produced by Rust's `{:x}` formatting. -/
def toHexMin (n : Nat) : Str :=
  if h : n < 16 then [hexDigit n] else toHexMin (n / 16) ++ [hexDigit (n % 16)]
  termination_by n
  decreasing_by exact Nat.div_lt_self (by omega) (by omega)

/-- `format!("{:0wx}", n)`: minimal hex, zero-padded on the left to width `w`. -/
def hexPad (w n : Nat) : Str :=
  List.replicate (w - (toHexMin n).length) '0' ++ toHexMin n

/-! ## Escaper: encoding (`encode_string`, `src/lib.rs` lines 61-76) -/

/-- One character of `encode_string`'s loop body. -/
def encodeChar (c : Char) : Str :=
  if c.isAlphanum || c = '.' || c = '_' || c = '-' then [c]
  else if c = '$' then ['!']
  else if c.toNat < 0x100 then '*' :: hexPad 2 c.toNat
  else '*' :: '*' :: hexPad 4 c.toNat

/-- `encode_string`: escape every scalar value of `s` in order. -/
def encode_string : Str → Str
  | [] => []
  | c :: rest => encodeChar c ++ encode_string rest

/-! ## Serializer (`serialize_helper`, `src/lib.rs` lines 7-59) -/

/-- Decimal digit character. -/
def decDigit (n : Nat) : Char := Char.ofNat (48 + n)

/-- Big-endian decimal rendering of a natural number (Rust `u64::to_string`). -/
def natDec (n : Nat) : Str :=
  if h : n < 10 then [decDigit n] else natDec (n / 10) ++ [decDigit (n % 10)]
  termination_by n
  decreasing_by exact Nat.div_lt_self (by omega) (by omega)

/-- Rust `i64::to_string`. -/
def intDec (i : Int) : Str := if i < 0 then '-' :: natDec i.natAbs else natDec i.toNat

/-- `serde_json::Number::as_i64` (default features): `Some` exactly for
`PosInt` values that fit in `i64` and for all `NegInt` values. -/
def as_i64 : JNum → Option Int
  | .posInt n => if n ≤ 2 ^ 63 - 1 then some (n : Int) else none
  | .negInt n => some n
  | .float _ => none

/-- `serde_json::Number::as_f64` (default features): always succeeds — `u64`
and `i64` convert (possibly lossily) and a `Float` is returned as-is.  The
decimal text carried for the integer cases models the host's float formatting
(outside the core per the spec); no theorem depends on that text. -/
def as_f64 : JNum → Option F64
  | .posInt n => some ⟨true, natDec n⟩
  | .negInt n => some ⟨true, intDec n⟩
  | .float f => some f

mutual

/-- `serialize_helper`.  `none` models the `panic!("Unexpected number type")`
branch (reachable only if both `as_i64` and `as_f64` fail). -/
def serialize_helper : JValue → Option Str
  | .null => some ('~' :: ('n' :: ('u' :: ('l' :: ('l' :: [])))))
  | .bool b => some (if b then '~' :: ('t' :: ('r' :: ('u' :: ('e' :: []))))
      else '~' :: ('f' :: ('a' :: ('l' :: ('s' :: ('e' :: []))))))
  | .num n =>
    match as_i64 n with
    | some i => some ('~' :: intDec i)
    | none =>
      match as_f64 n with
      | some f =>
        some (if f.isFinite then '~' :: f.toStr
          else '~' :: ('n' :: ('u' :: ('l' :: ('l' :: [])))))
      | none => none
  | .str s => some ('~' :: Char.ofNat 39 :: encode_string s)
  | .arr a =>
    match serialize_list a with
    | some body => some ('~' :: '(' :: ((if a.isEmpty then ['~'] else body) ++ [')']))
    | none => none
  | .obj o =>
    match serialize_obj true o with
    | some body => some ('~' :: '(' :: (body ++ [')']))
    | none => none

/-- The concatenated serializations of the elements of an array. -/
def serialize_list : List JValue → Option Str
  | [] => some []
  | v :: rest =>
    match serialize_helper v, serialize_list rest with
    | some s, some r => some (s ++ r)
    | _, _ => none

/-- The body text of an object: `~` separator before every pair except the
first, then the escaped key, then the value's own serialization. -/
def serialize_obj (first : Bool) : List (Str × JValue) → Option Str
  | [] => some []
  | (k, v) :: rest =>
    match serialize_helper v, serialize_obj false rest with
    | some s, some r =>
      some ((if first then [] else ['~']) ++ encode_string k ++ s ++ r)
    | _, _ => none

end

/-- `serialize`: the public entry point (its internal panic branch is proved
unreachable, see the totality theorem). -/
def serialize (v : JValue) : Str := (serialize_helper v).getD []

/-! ## Escaper: decoding (`decode`, `src/lib.rs` lines 111-204) -/

/-- Rust `char::is_ascii_hexdigit`. -/
def isAsciiHexdigit (c : Char) : Bool :=
  c.isDigit || ('a' ≤ c && c ≤ 'f') || ('A' ≤ c && c ≤ 'F')

/-- Value of one hex digit, as contributed to `u32::from_str_radix(_, 16)`
(only ever applied after `is_ascii_hexdigit` has been checked). -/
def hexDigitVal (c : Char) : Nat :=
  if c.isDigit then c.toNat - 48
  else if 'a' ≤ c && c ≤ 'f' then c.toNat - 97 + 10
  else c.toNat - 65 + 10

/-- Rust `std::char::from_u32`: `Some` exactly on valid Unicode scalar values
(rejecting surrogates and codepoints above `0x10FFFF`). -/
def charFromU32 (n : Nat) : Option Char :=
  if h : n.isValidChar then some (Char.ofNat n) else none

/-- Prepend a decoded character to the result of the rest of the decode loop
(models `result.push(c)` followed by the next loop iterations). -/
def prependD (a : Char) : Except DeserializeError (Str × Str) →
    Except DeserializeError (Str × Str)
  | .ok (s, t) => .ok (a :: s, t)
  | .error e => .error e

/-- What follows a `*` in `decode` (`src/lib.rs` lines 119-192): a second
`*` introduces a four-hex-digit escape, anything else begins a two-digit
escape.  Returns the decoded character and the remainder. -/
def decodeEscape : Str → Except DeserializeError (Char × Str)
  | [] => .error .unexpectedEnd
  | c2 :: rest1 =>
    if c2 = '*' then
      -- case: character with unicode value > 0xff (four hex digits)
      match rest1 with
      | h1 :: h2 :: h3 :: h4 :: rest2 =>
        if ¬ isAsciiHexdigit h1 then .error (.unexpectedCharacter h1 none)
        else if ¬ isAsciiHexdigit h2 then .error (.unexpectedCharacter h2 none)
        else if ¬ isAsciiHexdigit h3 then .error (.unexpectedCharacter h3 none)
        else if ¬ isAsciiHexdigit h4 then .error (.unexpectedCharacter h4 none)
        else
          match charFromU32 (((hexDigitVal h1 * 16 + hexDigitVal h2) * 16
              + hexDigitVal h3) * 16 + hexDigitVal h4) with
          | some ch => .ok (ch, rest2)
          | none => .error (.invalidEscapeSequence [h1, h2, h3, h4])
      | _ => .error .unexpectedEnd
    else
      -- case: character with unicode value <= 0xff (`c2` is the first digit)
      match rest1 with
      | h2 :: rest2 =>
        if ¬ isAsciiHexdigit c2 then .error (.unexpectedCharacter c2 none)
        else if ¬ isAsciiHexdigit h2 then .error (.unexpectedCharacter h2 none)
        else
          match charFromU32 (hexDigitVal c2 * 16 + hexDigitVal h2) with
          | some ch => .ok (ch, rest2)
          | none => .error (.invalidEscapeSequence [c2, h2])
      | [] => .error .unexpectedEnd

/-- A successful escape consumes at least the introducing digit: the
remainder is strictly shorter than the input. -/
theorem decodeEscape_length {l : Str} {ch : Char} {r : Str}
    (h : decodeEscape l = .ok (ch, r)) : r.length < l.length := by
  cases l with
  | nil => simp [decodeEscape] at h
  | cons c2 rest1 =>
    unfold decodeEscape at h
    repeat' split at h
    all_goals (try cases h)
    all_goals (simp_all; omega)

/-- The `decode` loop: consume characters up to (not including) the first
`~` or `)` or the end of input, resolving `!` and `*`/`**` escapes.  Returns
the decoded text and the unconsumed remainder. -/
def decode : Str → Except DeserializeError (Str × Str)
  | [] => .ok ([], [])
  | c :: rest =>
    if c = '~' || c = ')' then .ok ([], c :: rest)
    else if c = '*' then
      match h : decodeEscape rest with
      | .ok (ch, rest2) => prependD ch (decode rest2)
      | .error e => .error e
    else if c = '!' then prependD '$' (decode rest)
    else prependD c (decode rest)
  termination_by l => l.length
  decreasing_by
  · have := decodeEscape_length h
    simp only [List.length_cons]
    omega
  · simp
  · simp

/-! ## Number parsing

`parse_one` delegates bare-literal number parsing to
`result.parse::<serde_json::Number>()`, a dependency whose code is not part
of this repository. -/

/-- Split a leading run of ASCII decimal digits. -/
def spanDigits (l : Str) : Str × Str := (l.takeWhile Char.isDigit, l.dropWhile Char.isDigit)

/-- Numeric value of a run of decimal digits. -/
def digitsToNat (l : Str) : Nat := l.foldl (fun a c => a * 10 + (c.toNat - 48)) 0

/-- JSON integer part: `0`, or a nonzero digit followed by digits. -/
def validIntPart (d : Str) : Bool :=
  match d with
  | [] => false
  | c :: rest => c.isDigit && (decide (c ≠ '0') || decide (rest = []))

/-- JSON exponent tail (after `e`/`E`): optional sign then one or more digits. -/
def validExpPart (l : Str) : Bool :=
  match l with
  | '+' :: t => decide (t ≠ []) && t.all Char.isDigit
  | '-' :: t => decide (t ≠ []) && t.all Char.isDigit
  | t => decide (t ≠ []) && t.all Char.isDigit

/-- JSON fraction/exponent suffix after the integer part. -/
def validFracExp (l : Str) : Bool :=
  match l with
  | [] => true
  | '.' :: t =>
    let p := spanDigits t
    decide (p.1 ≠ []) &&
      (match p.2 with
       | [] => true
       | c :: t2 => (decide (c = 'e') || decide (c = 'E')) && validExpPart t2)
  | c :: t => (decide (c = 'e') || decide (c = 'E')) && validExpPart t

/-- Modelled from the spec: `serde_json::Number::from_str` (the `serde_json`
dependency; its source is not part of this repository).  It accepts exactly
the JSON number grammar; an integer-classified text becomes `PosInt`/`NegInt`
when it fits the 64-bit ranges; everything else becomes a finite float
(`"-0"` included — `serde_json` preserves its sign as a float; decoded text
always "produces a finite number or fails" per the spec §3).  The model keeps
the source text as the float's rendering; no theorem depends on that text
(real `serde_json` additionally rejects floats overflowing `f64`; the model
is more permissive there, which no claim exercises). -/
def parseNumber (s : Str) : Option JNum :=
  let neg : Bool := decide (s.head? = some '-')
  let body := if neg then s.tail else s
  let p := spanDigits body
  if ¬ validIntPart p.1 then none
  else if hr : p.2 = [] then
    let v := digitsToNat p.1
    if neg then
      if v = 0 then some (.float ⟨true, s⟩)
      else if v ≤ 2 ^ 63 then some (.negInt (-(v : Int)))
      else some (.float ⟨true, s⟩)
    else if v < 2 ^ 64 then some (.posInt v)
    else some (.float ⟨true, s⟩)
  else if validFracExp p.2 then some (.float ⟨true, s⟩)
  else none

/-! ## Parser (`parse_one`, `src/lib.rs` lines 206-297)

The Rust cursor (`std::str::Chars` with clone-based `peek`/`peekn`) becomes
explicit list passing: each function returns the unconsumed remainder. -/

/-- The run of characters a bare literal accumulates: everything up to (not
including) the first `)` or `~` or the end of input. -/
def readRun : Str → Str × Str
  | [] => ([], [])
  | c :: rest =>
    if c = ')' || c = '~' then ([], c :: rest)
    else
      let p := readRun rest
      (c :: p.1, p.2)

/-- `serde_json::Map::insert` under `preserve_order` (an `IndexMap`): an
existing key keeps its position and gets the new value; a new key is
appended. -/
def mapInsert (m : List (Str × JValue)) (k : Str) (v : JValue) : List (Str × JValue) :=
  match m with
  | [] => [(k, v)]
  | (k1, v1) :: rest =>
    if k1 = k then (k1, v) :: rest else (k1, v1) :: mapInsert rest k v

/-- Finish a bare-literal run (`src/lib.rs` lines 273-287): keyword match,
then the leading `-`/digit check, then number parsing.  `run` is never empty
(the branch always consumes one character first); `.panicked` models the
`unwrap` that would fail if it were. -/
def finalizeBare (run : Str) (r : Str) : PResult (JValue × Str) :=
  if run = ['n', 'u', 'l', 'l'] then .ok (.null, r)
  else if run = ['t', 'r', 'u', 'e'] then .ok (.bool true, r)
  else if run = ['f', 'a', 'l', 's', 'e'] then .ok (.bool false, r)
  else
    match run.head? with
    | some c =>
      if c = '-' || c.isDigit then
        match parseNumber run with
        | some n => .ok (.num n, r)
        | none => .fail (.invalidValue run)
      else .fail (.invalidValue run)
    | none => .panicked

mutual

/-- `parse_one`: requires and consumes a leading `~`, then dispatches on one
(or, for the empty array, two) characters of lookahead.  The `fuel` argument
only bounds the recursion depth of the embedding; `deserialize` passes more
fuel than the input length, which never runs out. -/
def parse_one : Nat → Str → PResult (JValue × Str)
  | 0, _ => .outOfFuel
  | _ + 1, [] => .fail .unexpectedEnd
  | _ + 1, [c] =>
    if c ≠ '~' then .fail (.unexpectedCharacter c (some '~'))
    else .fail .unexpectedEnd
  | fuel + 1, c :: c2 :: rest2 =>
      if c ≠ '~' then .fail (.unexpectedCharacter c (some '~'))
      else
          if c2 = '(' then
            if rest2.head? = some '~' then
              if (rest2.drop 1).head? = some ')' then .ok (.arr [], rest2.drop 2)
              else
                match parse_array_items fuel rest2 with
                | .ok (vs, r) => .ok (.arr vs, r)
                | .fail e => .fail e
                | .panicked => .panicked
                | .outOfFuel => .outOfFuel
            else if rest2.head? = some ')' then .ok (.obj [], rest2.drop 1)
            else
              match parse_object_items fuel rest2 [] with
              | .ok (m, r) => .ok (.obj m, r)
              | .fail e => .fail e
              | .panicked => .panicked
              | .outOfFuel => .outOfFuel
          else if c2 = Char.ofNat 39 then
            match decode rest2 with
            | .ok (s, r) => .ok (.str s, r)
            | .error e => .fail e
          else
            let p := readRun rest2
            finalizeBare (c2 :: p.1) p.2

/-- The array loop of `parse_one`: parse `~`-prefixed values until `)`. -/
def parse_array_items : Nat → Str → PResult (List JValue × Str)
  | 0, _ => .outOfFuel
  | fuel + 1, cs =>
    if cs.head? = some ')' then .ok ([], cs.drop 1)
    else
      match parse_one fuel cs with
      | .ok (v, r) =>
        match parse_array_items fuel r with
        | .ok (vs, r2) => .ok (v :: vs, r2)
        | .fail e => .fail e
        | .panicked => .panicked
        | .outOfFuel => .outOfFuel
      | .fail e => .fail e
      | .panicked => .panicked
      | .outOfFuel => .outOfFuel

/-- The object loop of `parse_one`: decode a key, parse its value, insert,
then require `~` (more pairs) or `)` (done).  A `None` peek after a pair hits
`c.unwrap()` in the source — modelled as `.panicked`. -/
def parse_object_items : Nat → Str → List (Str × JValue) → PResult (List (Str × JValue) × Str)
  | 0, _, _ => .outOfFuel
  | fuel + 1, cs, m =>
    match decode cs with
    | .error e => .fail e
    | .ok (key, r1) =>
      match parse_one fuel r1 with
      | .ok (v, r2) =>
        match r2 with
        | c :: r3 =>
          if c = '~' then parse_object_items fuel r3 (mapInsert m key v)
          else if c = ')' then .ok (mapInsert m key v, r3)
          else .fail (.unexpectedCharacter c none)
        | [] => .panicked
      | .fail e => .fail e
      | .panicked => .panicked
      | .outOfFuel => .outOfFuel

end

/-- `deserialize` (`src/lib.rs` lines 86-96).  After a successful parse the
source runs `if chars.next().is_some() { Err(UnexpectedCharacter(chars.next().unwrap(), None)) }`:
the first trailing character is consumed by the guard and the *second* is
unwrapped for the error — so exactly one trailing character panics. -/
def deserialize (s : Str) : PResult JValue :=
  match parse_one (s.length + 1) s with
  | .ok (v, r) =>
    match r with
    | [] => .ok v
    | [_] => .panicked
    | _ :: c2 :: _ => .fail (.unexpectedCharacter c2 none)
  | .fail e => .fail e
  | .panicked => .panicked
  | .outOfFuel => .outOfFuel

/-! ## Value predicates -/

/-- Characters whose escape decodes back (the `**` escape reads exactly four
hex digits, so astral codepoints — five hex digits — are outside it). -/
def charBound (c : Char) : Bool := decide (c.toNat < 0x10000)

/-- Numbers on the exact-integer serialization path: `as_i64` succeeds and the
value round-trips through decimal text (all of `i64` except that a modelled
`negInt` must actually be negative, as in `serde_json`). -/
def goodNum : JNum → Bool
  | .posInt n => decide (n < 2 ^ 63)
  | .negInt n => decide (-(2 ^ 63 : Int) ≤ n) && decide (n < 0)
  | .float _ => false

/-- The first key of an object body, if any, is nonempty (an empty first key
makes the serialized object start `~(~`, which parses as an array). -/
def firstKeyNonempty : List (Str × JValue) → Bool
  | [] => true
  | (k, _) :: _ => decide (k ≠ [])

/-- Keys are pairwise distinct (always true of a `serde_json::Map`). -/
def keysUnique : List (Str × JValue) → Bool
  | [] => true
  | (k, _) :: rest => !(rest.any fun kv => decide (kv.1 = k)) && keysUnique rest

mutual

/-- The round-trippable fragment: integer numbers in `i64` range, string and
key characters below `0x10000`, objects with distinct keys and a nonempty
first key. -/
def good : JValue → Bool
  | .null => true
  | .bool _ => true
  | .num n => goodNum n
  | .str s => s.all charBound
  | .arr xs => goodL xs
  | .obj es => firstKeyNonempty es && keysUnique es && goodO es

def goodL : List JValue → Bool
  | [] => true
  | v :: rest => good v && goodL rest

def goodO : List (Str × JValue) → Bool
  | [] => true
  | (k, v) :: rest => k.all charBound && good v && goodO rest

end

/-- A number is finite (non-`Float` variants always are). -/
def numFinite : JNum → Bool
  | .float f => f.isFinite
  | _ => true

mutual

/-- Every number occurring anywhere in the value is finite. -/
def allNumsFinite : JValue → Bool
  | .null => true
  | .bool _ => true
  | .num n => numFinite n
  | .str _ => true
  | .arr xs => allNumsFiniteL xs
  | .obj es => allNumsFiniteO es

def allNumsFiniteL : List JValue → Bool
  | [] => true
  | v :: rest => allNumsFinite v && allNumsFiniteL rest

def allNumsFiniteO : List (Str × JValue) → Bool
  | [] => true
  | (_, v) :: rest => allNumsFinite v && allNumsFiniteO rest

end

/-! ## The text-order pair sequence of an object body

`parse_object_items` folds each decoded `(key, value)` pair into the map as
it goes.  To speak about *every* well-formed object body — duplicate keys,
non-canonical spellings and all — we mirror the loop with the raw pair
sequence in text order instead of the folded map: `parse_object_pairs` is
`parse_object_items` with `mapInsert m key v` replaced by `m ++ [(key, v)]`
and every other step identical, so it succeeds, fails, panics or runs out of
fuel exactly when the real loop does (`parse_object_items_pairs` below). -/

def parse_object_pairs : Nat → Str → List (Str × JValue) →
    PResult (List (Str × JValue) × Str)
  | 0, _, _ => .outOfFuel
  | fuel + 1, cs, m =>
    match decode cs with
    | .error e => .fail e
    | .ok (key, r1) =>
      match parse_one fuel r1 with
      | .ok (v, r2) =>
        match r2 with
        | c :: r3 =>
          if c = '~' then parse_object_pairs fuel r3 (m ++ [(key, v)])
          else if c = ')' then .ok (m ++ [(key, v)], r3)
          else .fail (.unexpectedCharacter c none)
        | [] => .panicked
      | .fail e => .fail e
      | .panicked => .panicked
      | .outOfFuel => .outOfFuel

/-- Assoc-list lookup in a decoded object: the map is insertion-ordered, so
this is what `map["key"]` observes. -/
def lookupKey (m : List (Str × JValue)) (k : Str) : Option JValue :=
  match m with
  | [] => none
  | (k1, v1) :: rest => if k1 = k then some v1 else lookupKey rest k

/-- The value of the last occurrence of key `k` in a text-order pair
sequence, if `k` occurs at all: a later occurrence shadows every earlier
one. -/
def lastOcc (k : Str) : List (Str × JValue) → Option JValue
  | [] => none
  | (k1, v1) :: tl =>
    match lastOcc k tl with
    | some v => some v
    | none => if k1 = k then some v1 else none

/-! ## Hex-digit and hex-padding lemmas -/

theorem hexDigit_facts : ∀ d, d < 16 →
    isAsciiHexdigit (hexDigit d) = true ∧ hexDigitVal (hexDigit d) = d ∧
    hexDigit d ≠ '*' ∧ hexDigit d ≠ '~' ∧ hexDigit d ≠ ')' ∧ hexDigit d ≠ '!' := by
  decide

theorem hexDigitUpper_facts : ∀ d, d < 16 →
    isAsciiHexdigit (hexDigitUpper d) = true ∧ hexDigitVal (hexDigitUpper d) = d ∧
    hexDigitUpper d ≠ '*' := by
  decide

theorem toHexMin_small {n : Nat} (h : n < 16) : toHexMin n = [hexDigit n] := by
  rw [toHexMin]
  simp [h]

theorem toHexMin_two {n : Nat} (h1 : 16 ≤ n) (h2 : n < 256) :
    toHexMin n = [hexDigit (n / 16), hexDigit (n % 16)] := by
  rw [toHexMin]
  rw [dif_neg (by omega)]
  rw [toHexMin_small (by omega)]
  rfl

theorem toHexMin_three {n : Nat} (h1 : 256 ≤ n) (h2 : n < 4096) :
    toHexMin n = [hexDigit (n / 256), hexDigit (n / 16 % 16), hexDigit (n % 16)] := by
  rw [toHexMin]
  rw [dif_neg (by omega)]
  rw [toHexMin_two (by omega) (by omega)]
  have : n / 16 / 16 = n / 256 := by omega
  rw [this]
  have : n / 16 % 16 = n / 16 % 16 := rfl
  simp

theorem toHexMin_four {n : Nat} (h1 : 4096 ≤ n) (h2 : n < 65536) :
    toHexMin n = [hexDigit (n / 4096), hexDigit (n / 256 % 16),
      hexDigit (n / 16 % 16), hexDigit (n % 16)] := by
  rw [toHexMin]
  rw [dif_neg (by omega)]
  rw [toHexMin_three (by omega) (by omega)]
  have e1 : n / 16 / 256 = n / 4096 := by omega
  have e2 : n / 16 / 16 % 16 = n / 256 % 16 := by omega
  rw [e1, e2]
  rfl

theorem toHexMin_five {n : Nat} (h1 : 65536 ≤ n) (h2 : n < 1048576) :
    toHexMin n = [hexDigit (n / 65536), hexDigit (n / 4096 % 16),
      hexDigit (n / 256 % 16), hexDigit (n / 16 % 16), hexDigit (n % 16)] := by
  rw [toHexMin]
  rw [dif_neg (by omega)]
  rw [toHexMin_four (by omega) (by omega)]
  have e1 : n / 16 / 4096 = n / 65536 := by omega
  have e2 : n / 16 / 256 % 16 = n / 4096 % 16 := by omega
  have e3 : n / 16 / 16 % 16 = n / 256 % 16 := by omega
  rw [e1, e2, e3]
  rfl

theorem hexPad2_eq {n : Nat} (h : n < 256) :
    hexPad 2 n = [hexDigit (n / 16), hexDigit (n % 16)] := by
  unfold hexPad
  by_cases h16 : n < 16
  · rw [toHexMin_small h16]
    have e0 : n / 16 = 0 := by omega
    have e1 : n % 16 = n := by omega
    have : hexDigit 0 = '0' := by decide
    simp [e0, e1, this, List.replicate]
  · rw [toHexMin_two (by omega) h]
    simp

theorem hexPad4_eq {n : Nat} (h : n < 65536) :
    hexPad 4 n = [hexDigit (n / 4096), hexDigit (n / 256 % 16),
      hexDigit (n / 16 % 16), hexDigit (n % 16)] := by
  unfold hexPad
  have h0 : hexDigit 0 = '0' := by decide
  by_cases c1 : n < 16
  · rw [toHexMin_small c1]
    have e1 : n / 4096 = 0 := by omega
    have e2 : n / 256 % 16 = 0 := by omega
    have e3 : n / 16 % 16 = 0 := by omega
    have e4 : n % 16 = n := by omega
    simp [e1, e2, e3, e4, h0, List.replicate]
  · by_cases c2 : n < 256
    · rw [toHexMin_two (by omega) c2]
      have e1 : n / 4096 = 0 := by omega
      have e2 : n / 256 % 16 = 0 := by omega
      have e3 : n / 16 % 16 = n / 16 := by omega
      simp [e1, e2, e3, h0, List.replicate]
    · by_cases c3 : n < 4096
      · rw [toHexMin_three (by omega) c3]
        have e1 : n / 4096 = 0 := by omega
        have e2 : n / 256 % 16 = n / 256 := by omega
        simp [e1, e2, h0, List.replicate]
      · rw [toHexMin_four (by omega) h]
        simp

theorem hexPad4_eq_five {n : Nat} (h1 : 65536 ≤ n) (h2 : n < 1048576) :
    hexPad 4 n = [hexDigit (n / 65536), hexDigit (n / 4096 % 16),
      hexDigit (n / 256 % 16), hexDigit (n / 16 % 16), hexDigit (n % 16)] := by
  unfold hexPad
  rw [toHexMin_five h1 h2]
  simp

theorem toHexMin_six {n : Nat} (h1 : 1048576 ≤ n) (h2 : n < 16777216) :
    toHexMin n = [hexDigit (n / 1048576), hexDigit (n / 65536 % 16),
      hexDigit (n / 4096 % 16), hexDigit (n / 256 % 16), hexDigit (n / 16 % 16),
      hexDigit (n % 16)] := by
  rw [toHexMin]
  rw [dif_neg (by omega)]
  rw [toHexMin_five (by omega) (by omega)]
  have e1 : n / 16 / 65536 = n / 1048576 := by omega
  have e2 : n / 16 / 4096 % 16 = n / 65536 % 16 := by omega
  have e3 : n / 16 / 256 % 16 = n / 4096 % 16 := by omega
  have e4 : n / 16 / 16 % 16 = n / 256 % 16 := by omega
  rw [e1, e2, e3, e4]
  rfl

theorem hexPad4_eq_six {n : Nat} (h1 : 1048576 ≤ n) (h2 : n < 16777216) :
    hexPad 4 n = [hexDigit (n / 1048576), hexDigit (n / 65536 % 16),
      hexDigit (n / 4096 % 16), hexDigit (n / 256 % 16), hexDigit (n / 16 % 16),
      hexDigit (n % 16)] := by
  unfold hexPad
  rw [toHexMin_six h1 h2]
  simp

/-! ## `charFromU32` lemmas -/

theorem charFromU32_toNat (c : Char) : charFromU32 c.toNat = some c := by
  have hv : c.toNat.isValidChar := c.valid
  unfold charFromU32
  rw [dif_pos hv]
  rw [Char.ofNat_toNat]

/-! ## Escape round-trip lemmas -/

/-- A remainder at which the decode loop (and a bare-literal run) stops:
empty, or starting with `~` or `)`. -/
def restOk : Str → Bool
  | [] => true
  | c :: _ => decide (c = '~') || decide (c = ')')

theorem decode_nil : decode [] = .ok ([], []) := by
  rw [decode]

theorem decode_stop {c : Char} (h : c = '~' ∨ c = ')') (rest : Str) :
    decode (c :: rest) = .ok ([], c :: rest) := by
  rw [decode]
  rw [if_pos (by rcases h with rfl | rfl <;> simp)]

theorem decode_star (rest : Str) :
    decode ('*' :: rest) = (match decodeEscape rest with
      | .ok (ch, rest2) => prependD ch (decode rest2)
      | .error e => .error e) := by
  conv_lhs => rw [decode]
  rw [if_neg (by decide), if_pos (by decide)]
  split
  · rename_i ch rest2 heq
    rw [heq]
  · rename_i e heq
    rw [heq]

theorem decode_bang (rest : Str) :
    decode ('!' :: rest) = prependD '$' (decode rest) := by
  rw [decode]
  rw [if_neg (by decide), if_neg (by decide), if_pos (by decide)]

theorem decode_other {c : Char} (h1 : c ≠ '~') (h2 : c ≠ ')') (h3 : c ≠ '*') (h4 : c ≠ '!')
    (rest : Str) : decode (c :: rest) = prependD c (decode rest) := by
  rw [decode]
  rw [if_neg (by simp [h1, h2]), if_neg (by simpa using h3), if_neg (by simpa using h4)]

theorem decode_restOk {t : Str} (h : restOk t = true) : decode t = .ok ([], t) := by
  cases t with
  | nil => exact decode_nil
  | cons c t' =>
    simp only [restOk, Bool.or_eq_true, decide_eq_true_eq] at h
    exact decode_stop h t'

/-- Decoding the escape of one in-range character, followed by anything,
decodes that character and continues with the rest. -/
theorem decode_encodeChar (c : Char) (hb : charBound c = true) (t : Str) :
    decode (encodeChar c ++ t) = prependD c (decode t) := by
  unfold encodeChar
  by_cases h1 : (c.isAlphanum || c = '.' || c = '_' || c = '-') = true
  · rw [if_pos h1]
    have hne : c ≠ '~' ∧ c ≠ ')' ∧ c ≠ '*' ∧ c ≠ '!' := by
      refine ⟨?_, ?_, ?_, ?_⟩ <;> rintro rfl <;> exact absurd h1 (by decide)
    obtain ⟨n1, n2, n3, n4⟩ := hne
    simp only [List.cons_append, List.nil_append]
    exact decode_other n1 n2 n3 n4 t
  · rw [if_neg h1]
    by_cases h2 : c = '$'
    · rw [if_pos h2]
      subst h2
      simp only [List.cons_append, List.nil_append]
      exact decode_bang t
    · rw [if_neg h2]
      by_cases h3 : c.toNat < 0x100
      · rw [if_pos h3]
        rw [hexPad2_eq h3]
        have hd1 := hexDigit_facts (c.toNat / 16) (by omega)
        have hd2 := hexDigit_facts (c.toNat % 16) (by omega)
        have hesc : decodeEscape (hexDigit (c.toNat / 16) :: hexDigit (c.toNat % 16) :: t)
            = .ok (c, t) := by
          simp only [decodeEscape]
          rw [if_neg (by simpa using hd1.2.2.1)]
          rw [if_neg (by simp [hd1.1]), if_neg (by simp [hd2.1])]
          rw [hd1.2.1, hd2.2.1]
          have hc : c.toNat / 16 * 16 + c.toNat % 16 = c.toNat := by omega
          rw [hc, charFromU32_toNat]
        simp only [List.cons_append, List.nil_append]
        rw [decode_star, hesc]
      · rw [if_neg h3]
        have hb' : c.toNat < 0x10000 := by
          simpa [charBound] using hb
        rw [hexPad4_eq hb']
        have hd1 := hexDigit_facts (c.toNat / 4096) (by omega)
        have hd2 := hexDigit_facts (c.toNat / 256 % 16) (by omega)
        have hd3 := hexDigit_facts (c.toNat / 16 % 16) (by omega)
        have hd4 := hexDigit_facts (c.toNat % 16) (by omega)
        have hesc : decodeEscape ('*' :: hexDigit (c.toNat / 4096)
            :: hexDigit (c.toNat / 256 % 16) :: hexDigit (c.toNat / 16 % 16)
            :: hexDigit (c.toNat % 16) :: t) = .ok (c, t) := by
          simp only [decodeEscape]
          rw [if_pos (by decide)]
          rw [if_neg (by simp [hd1.1]), if_neg (by simp [hd2.1]),
            if_neg (by simp [hd3.1]), if_neg (by simp [hd4.1])]
          rw [hd1.2.1, hd2.2.1, hd3.2.1, hd4.2.1]
          have hc : ((c.toNat / 4096 * 16 + c.toNat / 256 % 16) * 16 + c.toNat / 16 % 16) * 16
              + c.toNat % 16 = c.toNat := by omega
          rw [hc, charFromU32_toNat]
        simp only [List.cons_append, List.nil_append]
        rw [decode_star, hesc]

/-- Decoding an escaped string followed by a stopping remainder recovers the
string exactly and stops at the remainder. -/
theorem decode_encode_string {s : Str} (hb : s.all charBound = true) {t : Str}
    (ht : restOk t = true) : decode (encode_string s ++ t) = .ok (s, t) := by
  induction s with
  | nil =>
    simpa [encode_string] using decode_restOk ht
  | cons c s' ih =>
    simp only [List.all_cons, Bool.and_eq_true] at hb
    simp only [encode_string, List.append_assoc]
    rw [decode_encodeChar c hb.1]
    rw [ih hb.2]
    rfl

/-- The escape of a nonempty string is nonempty and starts with a character
other than `~` and `)` (so it cannot be mistaken for structure). -/
theorem encode_string_head {k : Str} (hk : k ≠ []) :
    ∃ a t, encode_string k = a :: t ∧ a ≠ '~' ∧ a ≠ ')' := by
  obtain ⟨c, k', rfl⟩ := List.exists_cons_of_ne_nil hk
  simp only [encode_string]
  unfold encodeChar
  by_cases h1 : (c.isAlphanum || c = '.' || c = '_' || c = '-') = true
  · rw [if_pos h1]
    refine ⟨c, _, rfl, ?_, ?_⟩ <;> rintro rfl <;> exact absurd h1 (by decide)
  · rw [if_neg h1]
    by_cases h2 : c = '$'
    · rw [if_pos h2]
      exact ⟨'!', _, rfl, by decide, by decide⟩
    · rw [if_neg h2]
      by_cases h3 : c.toNat < 0x100
      · rw [if_pos h3]
        exact ⟨'*', _, rfl, by decide, by decide⟩
      · rw [if_neg h3]
        exact ⟨'*', _, rfl, by decide, by decide⟩

/-- A run of non-stopping characters followed by a stopping remainder is
accumulated exactly by `readRun`. -/
theorem readRun_append {t : Str} (h : ∀ c ∈ t, c ≠ ')' ∧ c ≠ '~') {r : Str}
    (hr : restOk r = true) : readRun (t ++ r) = (t, r) := by
  induction t with
  | nil =>
    cases r with
    | nil => rfl
    | cons c r' =>
      simp only [restOk, Bool.or_eq_true, decide_eq_true_eq] at hr
      simp only [List.nil_append]
      unfold readRun
      rw [if_pos (by rcases hr with rfl | rfl <;> simp)]
  | cons c t' ih =>
    have hc := h c (by simp)
    simp only [List.cons_append]
    unfold readRun
    rw [if_neg (by simp [hc.1, hc.2])]
    rw [ih (fun x hx => h x (by simp [hx]))]

/-! ## Decimal-text lemmas -/

theorem decDigit_facts : ∀ n, n < 10 →
    (decDigit n).isDigit = true ∧ (decDigit n).toNat = 48 + n ∧
    (decDigit n ≠ '0' ↔ n ≠ 0) := by
  decide

theorem isDigit_ne {c : Char} (h : c.isDigit = true) :
    c ≠ ')' ∧ c ≠ '~' ∧ c ≠ '-' ∧ c ≠ '(' ∧ c ≠ Char.ofNat 39 ∧ c ≠ 'n' ∧
    c ≠ 't' ∧ c ≠ 'f' := by
  refine ⟨?_, ?_, ?_, ?_, ?_, ?_, ?_, ?_⟩ <;> rintro rfl <;> exact absurd h (by decide)

theorem digitsToNat_append (a : Str) (c : Char) :
    digitsToNat (a ++ [c]) = digitsToNat a * 10 + (c.toNat - 48) := by
  simp [digitsToNat, List.foldl_append]

theorem natDec_spec : ∀ n, natDec n ≠ [] ∧ (∀ c ∈ natDec n, c.isDigit = true) ∧
    digitsToNat (natDec n) = n := by
  intro n
  induction n using Nat.strong_induction_on with
  | _ n ih =>
    rw [natDec]
    by_cases h : n < 10
    · rw [dif_pos h]
      have hd := decDigit_facts n h
      refine ⟨by simp, by simp [hd.1], ?_⟩
      simp [digitsToNat, hd.2.1]
    · rw [dif_neg h]
      have hih := ih (n / 10) (Nat.div_lt_self (by omega) (by omega))
      have hd := decDigit_facts (n % 10) (by omega)
      refine ⟨by simp, ?_, ?_⟩
      · intro c hc
        rcases List.mem_append.mp hc with hc | hc
        · exact hih.2.1 c hc
        · simp only [List.mem_singleton] at hc
          subst hc
          exact hd.1
      · rw [digitsToNat_append, hih.2.2, hd.2.1]
        omega

theorem natDec_head : ∀ n, ∃ c t, natDec n = c :: t ∧ c.isDigit = true ∧
    (n ≠ 0 → c ≠ '0') := by
  intro n
  induction n using Nat.strong_induction_on with
  | _ n ih =>
    rw [natDec]
    by_cases h : n < 10
    · rw [dif_pos h]
      have hd := decDigit_facts n h
      exact ⟨decDigit n, [], rfl, hd.1, fun hn => (hd.2.2).mpr hn⟩
    · rw [dif_neg h]
      obtain ⟨c, t, heq, hdig, hz⟩ := ih (n / 10) (Nat.div_lt_self (by omega) (by omega))
      exact ⟨c, t ++ [decDigit (n % 10)], by simp [heq], hdig,
        fun _ => hz (by omega)⟩

theorem natDec_zero : natDec 0 = ['0'] := by
  rw [natDec]
  rw [dif_pos (by omega)]
  decide

theorem spanDigits_all {l : Str} (h : ∀ c ∈ l, c.isDigit = true) :
    spanDigits l = (l, []) := by
  unfold spanDigits
  rw [List.takeWhile_eq_self_iff.mpr h, List.dropWhile_eq_nil_iff.mpr h]

theorem validIntPart_natDec (n : Nat) : validIntPart (natDec n) = true := by
  obtain ⟨c, t, heq, hdig, hz⟩ := natDec_head n
  rw [heq]
  unfold validIntPart
  by_cases h0 : n = 0
  · subst h0
    rw [natDec_zero] at heq
    obtain ⟨rfl, rfl⟩ := by
      have := heq
      simp only [List.cons.injEq] at this
      exact this
    decide
  · simp [hdig, hz h0]

theorem parseNumber_posInt {n : Nat} (h : n < 2 ^ 64) :
    parseNumber (natDec n) = some (.posInt n) := by
  obtain ⟨c, t, heq, hdig, -⟩ := natDec_head n
  have hspec := natDec_spec n
  have hne : c ≠ '-' := (isDigit_ne hdig).2.2.1
  have hneg : (decide ((natDec n).head? = some '-')) = false := by
    rw [heq]
    simp [hne]
  unfold parseNumber
  simp only [hneg, Bool.false_eq_true, if_false]
  simp only [spanDigits_all hspec.2.1]
  rw [if_neg (by simp [validIntPart_natDec])]
  rw [dif_pos trivial]
  rw [hspec.2.2]
  rw [if_pos (by omega)]

theorem parseNumber_negInt {m : Int} (h1 : -(2 ^ 63 : Int) ≤ m) (h2 : m < 0) :
    parseNumber ('-' :: natDec m.natAbs) = some (.negInt m) := by
  have hspec := natDec_spec m.natAbs
  unfold parseNumber
  simp only [List.head?_cons, List.tail_cons]
  have hz : ¬ digitsToNat (natDec m.natAbs) = 0 := by
    rw [hspec.2.2]
    omega
  have hle : digitsToNat (natDec m.natAbs) ≤ 2 ^ 63 := by
    rw [hspec.2.2]
    omega
  simp only [decide_True, if_true]
  simp only [spanDigits_all hspec.2.1]
  rw [if_neg (by simp [validIntPart_natDec])]
  rw [dif_pos trivial]
  rw [if_neg hz, if_pos hle]
  have hm : -((digitsToNat (natDec m.natAbs) : Nat) : Int) = m := by
    rw [hspec.2.2]
    omega
  rw [hm]

/-! ## Serializer totality and shape -/

theorem serialize_list_isSome {xs : List JValue}
    (H : ∀ v ∈ xs, (serialize_helper v).isSome = true) :
    (serialize_list xs).isSome = true := by
  induction xs with
  | nil => simp [serialize_list]
  | cons x t ih =>
    obtain ⟨s, hs⟩ := Option.isSome_iff_exists.mp (H x (by simp))
    obtain ⟨r, hr⟩ := Option.isSome_iff_exists.mp (ih (fun v hv => H v (by simp [hv])))
    simp [serialize_list, hs, hr]

theorem serialize_obj_isSome {es : List (Str × JValue)} (first : Bool)
    (H : ∀ kv ∈ es, (serialize_helper kv.2).isSome = true) :
    (serialize_obj first es).isSome = true := by
  induction es generalizing first with
  | nil => simp [serialize_obj]
  | cons kv t ih =>
    obtain ⟨k, v⟩ := kv
    obtain ⟨s, hs⟩ := Option.isSome_iff_exists.mp (H (k, v) (by simp))
    obtain ⟨r, hr⟩ := Option.isSome_iff_exists.mp
      (ih false (fun kv hkv => H kv (by simp [hkv])))
    simp [serialize_obj, hs, hr]

/-- The serializer never reaches its panic branch: every value produces text. -/
theorem serialize_helper_isSome : ∀ v, (serialize_helper v).isSome = true := by
  intro v
  induction v using JValue.myInduction with
  | hnull => simp [serialize_helper]
  | hbool b => simp [serialize_helper]
  | hstr s => simp [serialize_helper]
  | hnum n =>
    cases n with
    | posInt m =>
      simp only [serialize_helper, as_i64]
      split <;> simp [as_f64]
    | negInt m => simp [serialize_helper, as_i64]
    | float f => simp [serialize_helper, as_i64, as_f64]
  | harr xs ih =>
    obtain ⟨b, hb⟩ := Option.isSome_iff_exists.mp (serialize_list_isSome ih)
    simp [serialize_helper, hb]
  | hobj es ih =>
    obtain ⟨b, hb⟩ := Option.isSome_iff_exists.mp (serialize_obj_isSome true ih)
    simp [serialize_helper, hb]

theorem serialize_helper_eq (v : JValue) : serialize_helper v = some (serialize v) := by
  obtain ⟨s, hs⟩ := Option.isSome_iff_exists.mp (serialize_helper_isSome v)
  rw [serialize, hs]
  rfl

theorem ser_null : serialize .null = ['~', 'n', 'u', 'l', 'l'] := by
  simp [serialize, serialize_helper]

theorem ser_true : serialize (.bool true) = ['~', 't', 'r', 'u', 'e'] := by
  simp [serialize, serialize_helper]

theorem ser_false : serialize (.bool false) = ['~', 'f', 'a', 'l', 's', 'e'] := by
  simp [serialize, serialize_helper]

theorem intDec_ofNat (m : Nat) : intDec (m : Int) = natDec m := by
  unfold intDec
  rw [if_neg (by omega)]
  norm_num

theorem ser_posInt {m : Nat} (h : m < 2 ^ 63) :
    serialize (.num (.posInt m)) = '~' :: natDec m := by
  simp only [serialize, serialize_helper, as_i64]
  rw [if_pos (by omega : m ≤ 2 ^ 63 - 1)]
  simp [intDec_ofNat]

theorem ser_negInt {m : Int} (h : m < 0) :
    serialize (.num (.negInt m)) = '~' :: '-' :: natDec m.natAbs := by
  simp [serialize, serialize_helper, as_i64, intDec, h]

theorem ser_str (s : Str) :
    serialize (.str s) = '~' :: Char.ofNat 39 :: encode_string s := by
  simp [serialize, serialize_helper]

theorem ser_arr_nil : serialize (.arr []) = ['~', '(', '~', ')'] := by
  simp [serialize, serialize_helper, serialize_list]

theorem ser_obj_nil : serialize (.obj []) = ['~', '(', ')'] := by
  simp [serialize, serialize_helper, serialize_obj]

theorem serialize_list_nil : serialize_list [] = some [] := by
  simp [serialize_list]

theorem serialize_list_cons (x : JValue) (xs : List JValue) :
    ∃ bs', serialize_list xs = some bs' ∧
      serialize_list (x :: xs) = some (serialize x ++ bs') := by
  obtain ⟨bs', hbs'⟩ := Option.isSome_iff_exists.mp
    (serialize_list_isSome (fun v _ => serialize_helper_isSome v))
  refine ⟨bs', hbs', ?_⟩
  unfold serialize_list
  rw [serialize_helper_eq x, hbs']

theorem ser_arr_cons {x : JValue} {xs : List JValue} {bs : Str}
    (h : serialize_list (x :: xs) = some bs) :
    serialize (.arr (x :: xs)) = '~' :: '(' :: (bs ++ [')']) := by
  simp [serialize, serialize_helper, h]

theorem serialize_obj_nil (first : Bool) : serialize_obj first [] = some [] := by
  simp [serialize_obj]

theorem serialize_obj_cons (first : Bool) (k : Str) (v : JValue)
    (es : List (Str × JValue)) :
    ∃ body', serialize_obj false es = some body' ∧
      serialize_obj first ((k, v) :: es)
        = some ((if first then [] else ['~']) ++ encode_string k ++ serialize v ++ body') := by
  obtain ⟨body', hb'⟩ := Option.isSome_iff_exists.mp
    (serialize_obj_isSome false (fun kv _ => serialize_helper_isSome kv.2))
  refine ⟨body', hb', ?_⟩
  unfold serialize_obj
  rw [serialize_helper_eq v, hb']

theorem ser_obj_cons {k : Str} {v : JValue} {es : List (Str × JValue)} {body : Str}
    (h : serialize_obj true ((k, v) :: es) = some body) :
    serialize (.obj ((k, v) :: es)) = '~' :: '(' :: (body ++ [')']) := by
  simp [serialize, serialize_helper, h]

/-- Every `good` value's serialization starts `~c` with `c` neither `)` nor
`~`: the parser's dispatch sees an unambiguous second character. -/
theorem serialize_shape {v : JValue} (hg : good v = true) :
    ∃ c t, serialize v = '~' :: c :: t ∧ c ≠ ')' ∧ c ≠ '~' := by
  cases v with
  | null => exact ⟨'n', _, ser_null, by decide, by decide⟩
  | bool b =>
    cases b with
    | true => exact ⟨'t', _, ser_true, by decide, by decide⟩
    | false => exact ⟨'f', _, ser_false, by decide, by decide⟩
  | num n =>
    cases n with
    | posInt m =>
      have hm : m < 2 ^ 63 := by simpa [good, goodNum] using hg
      obtain ⟨c, t, heq, hdig, -⟩ := natDec_head m
      have hd := isDigit_ne hdig
      exact ⟨c, t, by rw [ser_posInt hm, heq], hd.1, hd.2.1⟩
    | negInt m =>
      have hm : m < 0 := by
        simp only [good, goodNum, Bool.and_eq_true, decide_eq_true_eq] at hg
        exact hg.2
      exact ⟨'-', _, ser_negInt hm, by decide, by decide⟩
    | float f => simp [good, goodNum] at hg
  | str s => exact ⟨Char.ofNat 39, _, ser_str s, by decide, by decide⟩
  | arr xs =>
    cases xs with
    | nil => exact ⟨'(', _, ser_arr_nil, by decide, by decide⟩
    | cons x t =>
      obtain ⟨bs', -, hcons⟩ := serialize_list_cons x t
      exact ⟨'(', _, ser_arr_cons hcons, by decide, by decide⟩
  | obj es =>
    cases es with
    | nil => exact ⟨'(', _, ser_obj_nil, by decide, by decide⟩
    | cons kv t =>
      obtain ⟨k, v⟩ := kv
      obtain ⟨body', -, hcons⟩ := serialize_obj_cons true k v t
      simp only [if_true, List.nil_append] at hcons
      exact ⟨'(', _, ser_obj_cons hcons, by decide, by decide⟩

theorem serialize_length {v : JValue} (hg : good v = true) :
    2 ≤ (serialize v).length := by
  obtain ⟨c, t, heq, -, -⟩ := serialize_shape hg
  rw [heq]
  simp

/-! ## Parser dispatch lemmas -/

theorem restOk_tilde (x : Str) : restOk ('~' :: x) = true := by simp [restOk]

theorem restOk_paren (x : Str) : restOk (')' :: x) = true := by simp [restOk]

theorem parse_one_bare (f : Nat) (c2 : Char) (rest2 : Str)
    (h1 : c2 ≠ '(') (h2 : c2 ≠ Char.ofNat 39) :
    parse_one (f + 1) ('~' :: c2 :: rest2)
      = finalizeBare (c2 :: (readRun rest2).1) (readRun rest2).2 := by
  rw [parse_one]
  rw [if_neg (by simp), if_neg h1, if_neg h2]

theorem parse_one_quote (f : Nat) (rest2 : Str) :
    parse_one (f + 1) ('~' :: Char.ofNat 39 :: rest2)
      = (match decode rest2 with
         | .ok (s, r) => .ok (.str s, r)
         | .error e => .fail e) := by
  rw [parse_one]
  rw [if_neg (by simp), if_neg (by decide), if_pos rfl]

theorem parse_one_arr_empty (f : Nat) (rest : Str) :
    parse_one (f + 1) ('~' :: '(' :: '~' :: ')' :: rest) = .ok (.arr [], rest) := by
  rw [parse_one]
  rw [if_neg (by simp), if_pos rfl]
  rw [if_pos (by simp), if_pos (by simp)]
  simp

theorem parse_one_arr_items (f : Nat) {rest2 : Str} {c : Char} {t : Str}
    (h : rest2 = '~' :: c :: t) (hc : c ≠ ')') :
    parse_one (f + 1) ('~' :: '(' :: rest2)
      = (match parse_array_items f rest2 with
         | .ok (vs, r) => .ok (.arr vs, r)
         | .fail e => .fail e
         | .panicked => .panicked
         | .outOfFuel => .outOfFuel) := by
  subst h
  rw [parse_one]
  rw [if_neg (by simp), if_pos rfl]
  rw [if_pos (by simp), if_neg (by simp [hc])]

theorem parse_one_obj_empty (f : Nat) (rest : Str) :
    parse_one (f + 1) ('~' :: '(' :: ')' :: rest) = .ok (.obj [], rest) := by
  rw [parse_one]
  rw [if_neg (by simp), if_pos rfl]
  rw [if_neg (by simp), if_pos (by simp)]
  simp

theorem parse_one_obj_items (f : Nat) {rest2 : Str} {a : Char} {t : Str}
    (h : rest2 = a :: t) (ha1 : a ≠ '~') (ha2 : a ≠ ')') :
    parse_one (f + 1) ('~' :: '(' :: rest2)
      = (match parse_object_items f rest2 [] with
         | .ok (m, r) => .ok (.obj m, r)
         | .fail e => .fail e
         | .panicked => .panicked
         | .outOfFuel => .outOfFuel) := by
  subst h
  rw [parse_one]
  rw [if_neg (by simp), if_pos rfl]
  rw [if_neg (by simp [ha1]), if_neg (by simp [ha2])]

/-! ## `good` projections -/

theorem goodL_mem {xs : List JValue} (h : goodL xs = true) :
    ∀ v ∈ xs, good v = true := by
  induction xs with
  | nil => simp
  | cons x t ih =>
    simp only [goodL, Bool.and_eq_true] at h
    intro v hv
    rcases List.mem_cons.mp hv with rfl | hv
    · exact h.1
    · exact ih h.2 v hv

theorem goodO_mem {es : List (Str × JValue)} (h : goodO es = true) :
    ∀ kv ∈ es, kv.1.all charBound = true ∧ good kv.2 = true := by
  induction es with
  | nil => simp
  | cons kv t ih =>
    obtain ⟨k, v⟩ := kv
    simp only [goodO, Bool.and_eq_true] at h
    intro kv2 hkv2
    rcases List.mem_cons.mp hkv2 with rfl | hkv2
    · exact ⟨h.1.1, h.1.2⟩
    · exact ih h.2 kv2 hkv2

/-! ## The parser inverts the serializer -/

/-- The property threaded through the round-trip induction. -/
def ParseSer (v : JValue) : Prop :=
  good v = true → ∀ fuel rest, restOk rest = true →
    (serialize v ++ rest).length < fuel →
    parse_one fuel (serialize v ++ rest) = .ok (v, rest)

theorem restOk_list_body {xs : List JValue} {bs : Str} (hg : goodL xs = true)
    (hbs : serialize_list xs = some bs) (rest : Str) :
    restOk (bs ++ ')' :: rest) = true := by
  cases xs with
  | nil =>
    rw [serialize_list_nil] at hbs
    injection hbs with hbs
    subst hbs
    exact restOk_paren rest
  | cons y t =>
    obtain ⟨bs'', h1, h2⟩ := serialize_list_cons y t
    rw [h2] at hbs
    injection hbs with hbs
    subst hbs
    obtain ⟨c, t2, hshape, -, -⟩ := serialize_shape (goodL_mem hg y (by simp))
    rw [hshape]
    exact restOk_tilde _

theorem parse_items_ser (xs : List JValue) (H : ∀ v ∈ xs, ParseSer v)
    (hg : goodL xs = true) :
    ∀ fuel rest bs, serialize_list xs = some bs →
      (bs ++ ')' :: rest).length + 2 ≤ fuel →
      parse_array_items fuel (bs ++ ')' :: rest) = .ok (xs, rest) := by
  induction xs with
  | nil =>
    intro fuel rest bs hbs hfuel
    rw [serialize_list_nil] at hbs
    injection hbs with hbs
    subst hbs
    cases fuel with
    | zero => simp at hfuel
    | succ f =>
      rw [parse_array_items]
      rw [if_pos (by simp)]
      simp
  | cons x t ih =>
    intro fuel rest bs hbs hfuel
    obtain ⟨bs', hbs', hcons⟩ := serialize_list_cons x t
    rw [hcons] at hbs
    injection hbs with hbs
    subst hbs
    have hgx : good x = true := goodL_mem hg x (by simp)
    have hgt : goodL t = true := by
      simp only [goodL, Bool.and_eq_true] at hg
      exact hg.2
    obtain ⟨c, t2, hshape, hc1, hc2⟩ := serialize_shape hgx
    cases fuel with
    | zero => simp at hfuel
    | succ f =>
      rw [parse_array_items]
      rw [if_neg (by rw [List.append_assoc, hshape]; simp)]
      have hre : restOk (bs' ++ ')' :: rest) = true := restOk_list_body hgt hbs' rest
      have hsx := serialize_length hgx
      have hlen : (serialize x ++ (bs' ++ ')' :: rest)).length < f := by
        simp only [List.length_append, List.length_cons] at hfuel ⊢
        omega
      have hp := H x (by simp) hgx f _ hre hlen
      have hlen2 : (bs' ++ ')' :: rest).length + 2 ≤ f := by
        simp only [List.length_append, List.length_cons] at hfuel ⊢
        omega
      have hrec := ih (fun v hv => H v (by simp [hv])) hgt f rest bs' hbs' hlen2
      rw [List.append_assoc, hp]
      simp only [hrec]

/-! ## Object reassembly: `mapInsert` and `foldl` -/

theorem mapInsert_fresh {m : List (Str × JValue)} {k : Str} {v : JValue}
    (h : ∀ kv ∈ m, kv.1 ≠ k) : mapInsert m k v = m ++ [(k, v)] := by
  induction m with
  | nil => rfl
  | cons kv t ih =>
    obtain ⟨k1, v1⟩ := kv
    unfold mapInsert
    rw [if_neg (h (k1, v1) (by simp))]
    rw [ih (fun kv hkv => h kv (by simp [hkv]))]
    simp

theorem keysUnique_head {k : Str} {v : JValue} {es : List (Str × JValue)}
    (h : keysUnique ((k, v) :: es) = true) : ∀ kv ∈ es, kv.1 ≠ k := by
  simp only [keysUnique, Bool.and_eq_true, Bool.not_eq_true', List.any_eq_false,
    decide_eq_false_iff_not] at h
  intro kv hkv
  have := h.1 kv hkv
  simpa using this

theorem keysUnique_tail {k : Str} {v : JValue} {es : List (Str × JValue)}
    (h : keysUnique ((k, v) :: es) = true) : keysUnique es = true := by
  simp only [keysUnique, Bool.and_eq_true] at h
  exact h.2

theorem foldl_mapInsert : ∀ (es acc : List (Str × JValue)),
    keysUnique es = true → (∀ kv ∈ es, ∀ kv2 ∈ acc, kv.1 ≠ kv2.1) →
    List.foldl (fun m kv => mapInsert m kv.1 kv.2) acc es = acc ++ es := by
  intro es
  induction es with
  | nil => intro acc _ _; simp
  | cons kv es' ih =>
    obtain ⟨k1, v1⟩ := kv
    intro acc hku hfresh
    have hstep : mapInsert acc k1 v1 = acc ++ [(k1, v1)] :=
      mapInsert_fresh (fun kv2 hkv2 => (hfresh (k1, v1) (by simp) kv2 hkv2).symm)
    simp only [List.foldl_cons]
    rw [hstep]
    rw [ih (acc ++ [(k1, v1)]) (keysUnique_tail hku) ?_]
    · simp
    · intro kv hkv kv2 hkv2
      rcases List.mem_append.mp hkv2 with hkv2 | hkv2
      · exact hfresh kv (by simp [hkv]) kv2 hkv2
      · simp only [List.mem_singleton] at hkv2
        subst hkv2
        exact keysUnique_head hku kv hkv

/-- Parsing the body of a nonempty serialized object accumulates its entries
by `mapInsert`, starting from `acc`. -/
theorem parse_oitems_ser (es : List (Str × JValue)) :
    ∀ (k : Str) (v : JValue), ParseSer v → (∀ kv ∈ es, ParseSer kv.2) →
    k.all charBound = true → good v = true → goodO es = true →
    ∀ fuel rest acc body', serialize_obj false es = some body' →
      (encode_string k ++ (serialize v ++ (body' ++ ')' :: rest))).length + 2 ≤ fuel →
      parse_object_items fuel (encode_string k ++ (serialize v ++ (body' ++ ')' :: rest))) acc
        = .ok (List.foldl (fun m kv => mapInsert m kv.1 kv.2) (mapInsert acc k v) es, rest) := by
  induction es with
  | nil =>
    intro k v H _ hkb hgv _ fuel rest acc body' hbody hfuel
    rw [serialize_obj_nil] at hbody
    injection hbody with hbody
    subst hbody
    simp only [List.nil_append] at hfuel ⊢
    cases fuel with
    | zero => simp at hfuel
    | succ f =>
      obtain ⟨c, t2, hshape, -, -⟩ := serialize_shape hgv
      have hdec : decode (encode_string k ++ (serialize v ++ ')' :: rest))
          = .ok (k, serialize v ++ ')' :: rest) := by
        refine decode_encode_string hkb ?_
        rw [hshape]
        exact restOk_tilde _
      have hsv := serialize_length hgv
      have hlen : (serialize v ++ ')' :: rest).length < f := by
        simp only [List.length_append, List.length_cons] at hfuel ⊢
        omega
      have hp := H hgv f (')' :: rest) (restOk_paren rest) hlen
      rw [parse_object_items]
      rw [hdec]
      simp only [hp]
      simp
  | cons kv es' ih =>
    obtain ⟨k1, v1⟩ := kv
    intro k v H Hes hkb hgv hges fuel rest acc body' hbody hfuel
    obtain ⟨body'', hbody'', hcons⟩ := serialize_obj_cons false k1 v1 es'
    rw [hcons] at hbody
    injection hbody with hbody
    subst hbody
    simp only [goodO, Bool.and_eq_true] at hges
    have hnorm : ((if false then ([] : Str) else ['~']) ++ encode_string k1
        ++ serialize v1 ++ body'') ++ ')' :: rest
        = '~' :: (encode_string k1 ++ (serialize v1 ++ (body'' ++ ')' :: rest))) := by
      simp
    rw [hnorm] at hfuel ⊢
    cases fuel with
    | zero => simp at hfuel
    | succ f =>
      obtain ⟨c, t2, hshape, -, -⟩ := serialize_shape hgv
      have hdec : decode (encode_string k ++ (serialize v ++
          ('~' :: (encode_string k1 ++ (serialize v1 ++ (body'' ++ ')' :: rest))))))
          = .ok (k, serialize v ++
            ('~' :: (encode_string k1 ++ (serialize v1 ++ (body'' ++ ')' :: rest))))) := by
        refine decode_encode_string hkb ?_
        rw [hshape]
        exact restOk_tilde _
      have hsv := serialize_length hgv
      have hlen : (serialize v ++
          ('~' :: (encode_string k1 ++ (serialize v1 ++ (body'' ++ ')' :: rest))))).length
            < f := by
        simp only [List.length_append, List.length_cons] at hfuel ⊢
        omega
      have hp := H hgv f _ (restOk_tilde _) hlen
      have hlen2 : (encode_string k1 ++ (serialize v1 ++ (body'' ++ ')' :: rest))).length
          + 2 ≤ f := by
        simp only [List.length_append, List.length_cons] at hfuel ⊢
        omega
      have hrec := ih k1 v1 (Hes (k1, v1) (by simp))
        (fun kv hkv => Hes kv (by simp [hkv])) hges.1.1 hges.1.2 hges.2
        f rest (mapInsert acc k v) body'' hbody'' hlen2
      rw [parse_object_items]
      rw [hdec]
      simp [hp, hrec]

/-- A bare run starting with `-` or a digit is not a keyword, so it goes to
the number parser. -/
theorem finalizeBare_num {run : Str} {c : Char} {t : Str} (heq : run = c :: t)
    (hc : c = '-' ∨ c.isDigit = true) (r : Str) :
    finalizeBare run r = (match parseNumber run with
      | some n => .ok (.num n, r)
      | none => .fail (.invalidValue run)) := by
  have hkw : c ≠ 'n' ∧ c ≠ 't' ∧ c ≠ 'f' := by
    rcases hc with rfl | hc
    · exact ⟨by decide, by decide, by decide⟩
    · exact ⟨(isDigit_ne hc).2.2.2.2.2.1, (isDigit_ne hc).2.2.2.2.2.2.1,
        (isDigit_ne hc).2.2.2.2.2.2.2⟩
  unfold finalizeBare
  rw [if_neg (by rw [heq]; intro hcontr; injection hcontr with h1 _; exact hkw.1 h1)]
  rw [if_neg (by rw [heq]; intro hcontr; injection hcontr with h1 _; exact hkw.2.1 h1)]
  rw [if_neg (by rw [heq]; intro hcontr; injection hcontr with h1 _; exact hkw.2.2 h1)]
  rw [heq]
  simp only [List.head?_cons]
  rw [if_pos (by rcases hc with rfl | hd
                 · simp
                 · simp [hd])]

/-- Main inversion: parsing the serialization of a good value, followed by a
stopping remainder, returns exactly that value and remainder. -/
theorem parse_ser : ∀ v, ParseSer v := by
  intro v
  induction v using JValue.myInduction with
  | hnull =>
    intro _ fuel rest hrest hlen
    rw [ser_null] at hlen ⊢
    cases fuel with
    | zero => simp at hlen
    | succ f =>
      have hrun := readRun_append (t := ['u', 'l', 'l']) (by decide) hrest
      simp only [List.cons_append, List.nil_append] at hrun ⊢
      rw [parse_one_bare f 'n' _ (by decide) (by decide)]
      rw [hrun]
      simp [finalizeBare]
  | hbool b =>
    intro _ fuel rest hrest hlen
    cases b
    · rw [ser_false] at hlen ⊢
      cases fuel with
      | zero => simp at hlen
      | succ f =>
        have hrun := readRun_append (t := ['a', 'l', 's', 'e']) (by decide) hrest
        simp only [List.cons_append, List.nil_append] at hrun ⊢
        rw [parse_one_bare f 'f' _ (by decide) (by decide)]
        rw [hrun]
        simp [finalizeBare]
    · rw [ser_true] at hlen ⊢
      cases fuel with
      | zero => simp at hlen
      | succ f =>
        have hrun := readRun_append (t := ['r', 'u', 'e']) (by decide) hrest
        simp only [List.cons_append, List.nil_append] at hrun ⊢
        rw [parse_one_bare f 't' _ (by decide) (by decide)]
        rw [hrun]
        simp [finalizeBare]
  | hnum n =>
    intro hg fuel rest hrest hlen
    cases n with
    | posInt m =>
      have hm : m < 2 ^ 63 := by simpa [good, goodNum] using hg
      obtain ⟨c, t, heq, hdig, -⟩ := natDec_head m
      have hd := isDigit_ne hdig
      rw [ser_posInt hm, heq] at hlen ⊢
      cases fuel with
      | zero => simp at hlen
      | succ f =>
        have hts : ∀ ch ∈ t, ch ≠ ')' ∧ ch ≠ '~' := by
          intro ch hch
          have : ch ∈ natDec m := by rw [heq]; simp [hch]
          have hchd := (natDec_spec m).2.1 ch this
          exact ⟨(isDigit_ne hchd).1, (isDigit_ne hchd).2.1⟩
        have hrun := readRun_append hts hrest
        simp only [List.cons_append] at hrun ⊢
        rw [parse_one_bare f c _ hd.2.2.2.1 hd.2.2.2.2.1]
        rw [hrun]
        rw [finalizeBare_num (heq ▸ rfl : (c :: t : Str) = c :: t) (Or.inr hdig)]
        rw [← heq, parseNumber_posInt (by omega)]
    | negInt m =>
      have hgm : -(2 ^ 63 : Int) ≤ m ∧ m < 0 := by
        simp only [good, goodNum, Bool.and_eq_true, decide_eq_true_eq] at hg
        exact hg
      rw [ser_negInt hgm.2] at hlen ⊢
      cases fuel with
      | zero => simp at hlen
      | succ f =>
        have hts : ∀ ch ∈ natDec m.natAbs, ch ≠ ')' ∧ ch ≠ '~' := by
          intro ch hch
          have hchd := (natDec_spec m.natAbs).2.1 ch hch
          exact ⟨(isDigit_ne hchd).1, (isDigit_ne hchd).2.1⟩
        have hrun := readRun_append hts hrest
        simp only [List.cons_append] at hrun ⊢
        rw [parse_one_bare f '-' _ (by decide) (by decide)]
        rw [hrun]
        rw [finalizeBare_num rfl (Or.inl rfl)]
        rw [parseNumber_negInt hgm.1 hgm.2]
    | float f => simp [good, goodNum] at hg
  | hstr s =>
    intro hg fuel rest hrest hlen
    have hb : s.all charBound = true := by simpa [good] using hg
    rw [ser_str] at hlen ⊢
    cases fuel with
    | zero => simp at hlen
    | succ f =>
      have hdec := decode_encode_string hb hrest
      simp only [List.cons_append] at hlen ⊢
      rw [parse_one_quote]
      rw [hdec]
  | harr xs ih =>
    intro hg fuel rest hrest hlen
    have hgl : goodL xs = true := by simpa [good] using hg
    cases xs with
    | nil =>
      rw [ser_arr_nil] at hlen ⊢
      cases fuel with
      | zero => simp at hlen
      | succ f =>
        simp only [List.cons_append, List.nil_append] at hlen ⊢
        exact parse_one_arr_empty f rest
    | cons x t =>
      obtain ⟨bs', hbs', hcons⟩ := serialize_list_cons x t
      rw [ser_arr_cons hcons] at hlen ⊢
      have hgx : good x = true := goodL_mem hgl x (by simp)
      obtain ⟨c, t2, hshape, hc1, -⟩ := serialize_shape hgx
      cases fuel with
      | zero => simp at hlen
      | succ f =>
        simp only [List.cons_append, List.append_assoc, List.singleton_append,
          List.nil_append] at hlen ⊢
        have hdisp : serialize x ++ (bs' ++ ')' :: rest)
            = '~' :: c :: (t2 ++ (bs' ++ ')' :: rest)) := by
          rw [hshape]
          simp
        rw [parse_one_arr_items f hdisp hc1]
        have hitems := parse_items_ser (x :: t) ih hgl f rest (serialize x ++ bs') hcons
          (by simp only [List.length_append, List.length_cons] at hlen ⊢; omega)
        simp only [List.append_assoc] at hitems
        rw [hitems]
  | hobj es ih =>
    intro hg fuel rest hrest hlen
    simp only [good, Bool.and_eq_true] at hg
    cases es with
    | nil =>
      rw [ser_obj_nil] at hlen ⊢
      cases fuel with
      | zero => simp at hlen
      | succ f =>
        simp only [List.cons_append, List.nil_append] at hlen ⊢
        exact parse_one_obj_empty f rest
    | cons kv es' =>
      obtain ⟨k0, v0⟩ := kv
      have hk0 : k0 ≠ [] := by
        have := hg.1
        simpa [firstKeyNonempty] using this.1
      have hgo : goodO ((k0, v0) :: es') = true := hg.2
      have hku : keysUnique ((k0, v0) :: es') = true := hg.1.2
      simp only [goodO, Bool.and_eq_true] at hgo
      obtain ⟨body'', hbody'', hcons0⟩ := serialize_obj_cons true k0 v0 es'
      simp only [if_true, List.nil_append] at hcons0
      rw [ser_obj_cons hcons0] at hlen ⊢
      obtain ⟨a, ta, hka, ha1, ha2⟩ := encode_string_head hk0
      cases fuel with
      | zero => simp at hlen
      | succ f =>
        simp only [List.cons_append, List.append_assoc, List.singleton_append,
          List.nil_append] at hlen ⊢
        have hdisp : encode_string k0 ++ (serialize v0 ++ (body'' ++ ')' :: rest))
            = a :: (ta ++ (serialize v0 ++ (body'' ++ ')' :: rest))) := by
          rw [hka]
          simp
        rw [parse_one_obj_items f hdisp ha1 ha2]
        have hoitems := parse_oitems_ser es' k0 v0 (ih (k0, v0) (by simp))
          (fun kv hkv => ih kv (by simp [hkv])) hgo.1.1 hgo.1.2 hgo.2
          f rest [] body'' hbody''
          (by simp only [List.length_append, List.length_cons] at hlen ⊢; omega)
        rw [hoitems]
        have hfold : List.foldl (fun m kv => mapInsert m kv.1 kv.2)
            (mapInsert [] k0 v0) es' = (k0, v0) :: es' := by
          have : mapInsert [] k0 v0 = [(k0, v0)] := rfl
          rw [this]
          rw [foldl_mapInsert es' [(k0, v0)] (keysUnique_tail hku) ?_]
          · simp
          · intro kv hkv kv2 hkv2
            simp only [List.mem_singleton] at hkv2
            subst hkv2
            exact keysUnique_head hku kv hkv
        rw [hfold]

/-- Round trip on the `good` fragment, at the public entry points. -/
theorem deserialize_serialize {v : JValue} (hg : good v = true) :
    deserialize (serialize v) = .ok v := by
  unfold deserialize
  have h := parse_ser v hg ((serialize v).length + 1) [] rfl (by simp)
  rw [List.append_nil] at h
  rw [h]

/-! ## Finiteness of parsed numbers -/

theorem allNumsFiniteL_iff {xs : List JValue} :
    allNumsFiniteL xs = true ↔ ∀ v ∈ xs, allNumsFinite v = true := by
  induction xs with
  | nil => simp [allNumsFiniteL]
  | cons x t ih => simp [allNumsFiniteL, ih]

theorem allNumsFiniteO_iff {es : List (Str × JValue)} :
    allNumsFiniteO es = true ↔ ∀ kv ∈ es, allNumsFinite kv.2 = true := by
  induction es with
  | nil => simp [allNumsFiniteO]
  | cons kv t ih =>
    obtain ⟨k, v⟩ := kv
    simp only [allNumsFiniteO, Bool.and_eq_true, ih]
    constructor
    · rintro ⟨h1, h2⟩ kv2 hkv2
      rcases List.mem_cons.mp hkv2 with rfl | hkv2
      · exact h1
      · exact h2 kv2 hkv2
    · intro h
      exact ⟨h (k, v) (by simp), fun kv2 hkv2 => h kv2 (by simp [hkv2])⟩

theorem mapInsert_mem {m : List (Str × JValue)} {k : Str} {v : JValue} {kv : Str × JValue}
    (h : kv ∈ mapInsert m k v) : kv ∈ m ∨ kv.2 = v := by
  induction m with
  | nil =>
    unfold mapInsert at h
    exact Or.inr (by rw [List.mem_singleton.mp h])
  | cons kv1 t ih =>
    obtain ⟨k1, v1⟩ := kv1
    unfold mapInsert at h
    by_cases hk : k1 = k
    · rw [if_pos hk] at h
      rcases List.mem_cons.mp h with rfl | h
      · exact Or.inr rfl
      · exact Or.inl (List.mem_cons_of_mem _ h)
    · rw [if_neg hk] at h
      rcases List.mem_cons.mp h with rfl | h
      · exact Or.inl (by simp)
      · rcases ih h with h2 | h2
        · exact Or.inl (List.mem_cons_of_mem _ h2)
        · exact Or.inr h2

theorem parseNumber_finite {s : Str} {n : JNum} (h : parseNumber s = some n) :
    numFinite n = true := by
  simp only [parseNumber] at h
  repeat' split at h
  all_goals (try cases h)
  all_goals (first | rfl | simp [numFinite])

theorem finalizeBare_finite {run r : Str} {v : JValue} {r2 : Str}
    (h : finalizeBare run r = .ok (v, r2)) : allNumsFinite v = true := by
  unfold finalizeBare at h
  repeat' split at h
  all_goals (try cases h)
  all_goals simp only [allNumsFinite]
  all_goals (first | rfl | (exact parseNumber_finite (by assumption)))

/-- Every number produced anywhere by the parser is finite, at every fuel. -/
theorem parse_finite : ∀ fuel,
    (∀ cs v r, parse_one fuel cs = .ok (v, r) → allNumsFinite v = true) ∧
    (∀ cs vs r, parse_array_items fuel cs = .ok (vs, r) →
      ∀ v ∈ vs, allNumsFinite v = true) ∧
    (∀ cs acc m r, parse_object_items fuel cs acc = .ok (m, r) →
      (∀ kv ∈ acc, allNumsFinite kv.2 = true) → ∀ kv ∈ m, allNumsFinite kv.2 = true) := by
  intro fuel
  induction fuel with
  | zero =>
    refine ⟨?_, ?_, ?_⟩
    · intro cs v r h
      simp [parse_one] at h
    · intro cs vs r h
      simp [parse_array_items] at h
    · intro cs acc m r h
      simp [parse_object_items] at h
  | succ f ih =>
    refine ⟨?_, ?_, ?_⟩
    · intro cs v r h
      match cs with
      | [] => simp [parse_one] at h
      | [c] =>
        rw [parse_one] at h
        split at h <;> cases h
      | c :: c2 :: rest2 =>
        rw [parse_one] at h
        repeat' split at h
        all_goals (try (cases h; done))
        all_goals (try cases h)
        all_goals first
          | (simp only [allNumsFinite, allNumsFiniteL, allNumsFiniteO]; done)
          | (simp only [allNumsFinite]
             exact allNumsFiniteL_iff.mpr (ih.2.1 _ _ _ (by assumption)))
          | (simp only [allNumsFinite]
             exact allNumsFiniteO_iff.mpr (ih.2.2 _ _ _ _ (by assumption) (by simp)))
          | (exact finalizeBare_finite h)
    · intro cs vs r h
      rw [parse_array_items] at h
      repeat' split at h
      all_goals (try (cases h; done))
      all_goals (try cases h)
      all_goals first
        | (intro v hv
           rcases List.mem_cons.mp hv with rfl | hv
           · exact ih.1 _ _ _ (by assumption)
           · exact ih.2.1 _ _ _ (by assumption) v hv)
        | (intro v hv
           simp at hv)
    · intro cs acc m r h hacc
      rw [parse_object_items] at h
      repeat' split at h
      all_goals (try (cases h; done))
      all_goals (try cases h)
      all_goals first
        | (refine ih.2.2 _ _ _ _ h ?_ 
           intro kv2 hkv2
           rcases mapInsert_mem hkv2 with h2 | h2
           · exact hacc kv2 h2
           · rw [h2]
             exact ih.1 _ _ _ (by assumption))
        | (intro kv hkv
           rcases mapInsert_mem hkv with h2 | h2
           · exact hacc kv h2
           · rw [h2]
             exact ih.1 _ _ _ (by assumption))

/-! ## Claim theorems -/

/-- C1, counterexample: the object `{"": 42}` serializes to `~(~42)`, which
deserializes as the array `[42]`, not as the object — an empty first key makes
the serialized object indistinguishable from an array, so the round-trip
claim fails as stated. -/
theorem claim_C1_counterexample :
    serialize (.obj [([], .num (.posInt 42))]) = "~(~42)".toList ∧
    deserialize (serialize (.obj [([], .num (.posInt 42))]))
      = .ok (.arr [.num (.posInt 42)]) ∧
    deserialize (serialize (.obj [([], .num (.posInt 42))]))
      ≠ .ok (.obj [([], .num (.posInt 42))]) := by
  refine ⟨?_, ?_, ?_⟩ <;>
    simp [serialize, serialize_helper, serialize_list, serialize_obj, encode_string,
      encodeChar, natDec, intDec, as_i64, as_f64, decDigit, deserialize, parse_one,
      parse_array_items, parse_object_items, decode, decodeEscape, prependD, readRun,
      finalizeBare, parseNumber, spanDigits, validIntPart, digitsToNat, mapInsert]

/-- C1, amended: for every value whose numbers are all integers in the `i64`
range, whose string and object-key characters are all below `U+10000`, and
whose objects have pairwise-distinct keys and a nonempty first key,
`deserialize (serialize v) = ok v`. -/
theorem claim_C1_theorem (v : JValue) (hg : good v = true) :
    deserialize (serialize v) = .ok v :=
  deserialize_serialize hg

/-- C1, witness: the round trip at a concrete good value. -/
theorem claim_C1_witness :
    good (.obj [(['a'], .num (.posInt 1))]) = true ∧
    deserialize (serialize (.obj [(['a'], .num (.posInt 1))]))
      = .ok (.obj [(['a'], .num (.posInt 1))]) :=
  ⟨by simp [good, goodL, goodO, goodNum, keysUnique, firstKeyNonempty, charBound],
   claim_C1_theorem (.obj [(['a'], .num (.posInt 1))])
     (by simp [good, goodL, goodO, goodNum, keysUnique, firstKeyNonempty, charBound])⟩

/-- C2: the trailing-input check calls `chars.next()` twice, so a complete
value followed by exactly one extra character — here `serialize(null) + "~"`,
the string `~null~` — hits `unwrap()` on `None` and panics instead of
returning a trailing-input error. -/
theorem claim_C2_theorem :
    serialize .null ++ ['~'] = "~null~".toList ∧
    deserialize ( "~null~".toList) = .panicked := by
  refine ⟨?_, ?_⟩
  · simp [serialize, serialize_helper]
  · simp [deserialize, parse_one, readRun, finalizeBare]

/-- C3, counterexample: `U+10000` encodes as `**10000` (five hex digits), but
the decoder reads only four, yielding `U+1000` followed by a literal `0` —
not the original character. -/
theorem claim_C3_counterexample :
    decode (encodeChar (Char.ofNat 0x10000)) = .ok ([Char.ofNat 0x1000, '0'], []) ∧
    decode (encodeChar (Char.ofNat 0x10000)) ≠ .ok ([Char.ofNat 0x10000], []) := by
  constructor <;>
    simp [decode, decodeEscape, prependD, charFromU32, hexDigitVal, isAsciiHexdigit,
      encodeChar, hexPad, toHexMin, hexDigit, Nat.isValidChar, Char.ofNat]

/-- C3, amended: for every Unicode scalar value with codepoint at most
`0xFFFF`, decoding the encoding of `c` in isolation yields exactly `[c]`. -/
theorem claim_C3_theorem (c : Char) (h : c.toNat < 0x10000) :
    decode (encodeChar c) = .ok ([c], []) := by
  have := decode_encodeChar c (by simpa [charBound] using h) []
  rw [List.append_nil] at this
  rw [this, decode_nil]
  rfl

/-- C3, witness: the escape round trip at `U+203C`. -/
theorem claim_C3_witness :
    decode (encodeChar (Char.ofNat 0x203c)) = .ok ([Char.ofNat 0x203c], []) :=
  claim_C3_theorem (Char.ofNat 0x203c) (by decide)

/-- C4: serialization is total — the `panic!("Unexpected number type")` branch
(modelled by `none`) is unreachable for every representable value, because
`as_f64` succeeds on every `Number` variant. -/
theorem claim_C4_theorem : ∀ v : JValue, (serialize_helper v).isSome = true :=
  serialize_helper_isSome

/-- C5: the worked example and the empty containers hold byte-for-byte, in
both directions. -/
theorem claim_C5_theorem :
    serialize (.obj [( "name".toList, .str ( "John Doe".toList)),
        ( "age".toList, .num (.posInt 42)),
        ( "children".toList, .arr [.str ( "Mary".toList), .str ( "Bill".toList)])])
      = "~(name~'John*20Doe~age~42~children~(~'Mary~'Bill))".toList ∧
    deserialize ( "~(name~'John*20Doe~age~42~children~(~'Mary~'Bill))".toList)
      = .ok (.obj [( "name".toList, .str ( "John Doe".toList)),
          ( "age".toList, .num (.posInt 42)),
          ( "children".toList, .arr [.str ( "Mary".toList), .str ( "Bill".toList)])]) ∧
    serialize (.arr []) = "~(~)".toList ∧
    serialize (.obj []) = "~()".toList ∧
    deserialize ( "~(~)".toList) = .ok (.arr []) ∧
    deserialize ( "~()".toList) = .ok (.obj []) := by
  refine ⟨?_, ?_, ?_, ?_, ?_, ?_⟩ <;>
    simp [serialize, serialize_helper, serialize_list, serialize_obj, encode_string,
      encodeChar, hexPad, toHexMin, natDec, intDec, as_i64, as_f64, decDigit, hexDigit,
      deserialize, parse_one, parse_array_items, parse_object_items, decode,
      decodeEscape, prependD, readRun, finalizeBare, parseNumber, spanDigits,
      validIntPart, digitsToNat, mapInsert, charFromU32, hexDigitVal, isAsciiHexdigit,
      Nat.isValidChar]

/-- C6: the escape encoder, characterized digit-by-digit — pass-through for
alphanumerics and `.`/`_`/`-`, `!` for `$`, `*` plus exactly two lowercase
zero-padded hex digits below `0x100`, and `**` plus lowercase hex zero-padded
to a *minimum* of four digits otherwise (so five digits for `U+10000`
through `U+FFFFF` and six for `U+100000` and above — no truncation). -/
theorem claim_C6_theorem : ∀ c : Char,
    encodeChar c =
      (if c.isAlphanum || c = '.' || c = '_' || c = '-' then [c]
       else if c = '$' then ['!']
       else if c.toNat < 0x100 then
         ['*', hexDigit (c.toNat / 16), hexDigit (c.toNat % 16)]
       else if c.toNat < 0x10000 then
         ['*', '*', hexDigit (c.toNat / 4096), hexDigit (c.toNat / 256 % 16),
           hexDigit (c.toNat / 16 % 16), hexDigit (c.toNat % 16)]
       else if c.toNat < 0x100000 then
         ['*', '*', hexDigit (c.toNat / 65536), hexDigit (c.toNat / 4096 % 16),
           hexDigit (c.toNat / 256 % 16), hexDigit (c.toNat / 16 % 16),
           hexDigit (c.toNat % 16)]
       else
         ['*', '*', hexDigit (c.toNat / 1048576), hexDigit (c.toNat / 65536 % 16),
           hexDigit (c.toNat / 4096 % 16), hexDigit (c.toNat / 256 % 16),
           hexDigit (c.toNat / 16 % 16), hexDigit (c.toNat % 16)]) := by
  intro c
  unfold encodeChar
  by_cases h1 : (c.isAlphanum || c = '.' || c = '_' || c = '-') = true
  · rw [if_pos h1, if_pos h1]
  · rw [if_neg h1, if_neg h1]
    by_cases h2 : c = '$'
    · rw [if_pos h2, if_pos h2]
    · rw [if_neg h2, if_neg h2]
      by_cases h3 : c.toNat < 0x100
      · rw [if_pos h3, if_pos h3, hexPad2_eq h3]
      · rw [if_neg h3, if_neg h3]
        by_cases h4 : c.toNat < 0x10000
        · rw [if_pos h4, hexPad4_eq h4]
        · rw [if_neg h4]
          have hb : c.toNat < 0x110000 := by
            have hv : c.toNat = c.val.toNat := rfl
            rcases c.valid with h | h
            · omega
            · omega
          by_cases h5 : c.toNat < 0x100000
          · rw [if_pos h5, hexPad4_eq_five (by omega) (by omega)]
          · rw [if_neg h5, hexPad4_eq_six (by omega) (by omega)]

/-- C7, counterexample: a non-hex character in a hex-digit position yields an
unexpected-character error, not the invalid-escape-sequence error the claim
requires. -/
theorem claim_C7_counterexample :
    decode ( "*zz".toList) = .error (.unexpectedCharacter 'z' none) ∧
    decode ( "*zz".toList) ≠ .error (.invalidEscapeSequence ['z', 'z']) := by
  constructor <;> simp [decode, decodeEscape, isAsciiHexdigit]

/-- C7, amended: in the decode loop, a non-hex character in a hex position
fails with an unexpected-character error carrying that character; four hex
digits denoting an invalid scalar value fail with an invalid-escape-sequence
error; input ending before a required hex digit fails with an end-of-input
error. -/
theorem claim_C7_theorem :
    (∀ h1 h2 h3 h4 rest, isAsciiHexdigit h1 = true → isAsciiHexdigit h2 = true →
      isAsciiHexdigit h3 = true → isAsciiHexdigit h4 = true →
      ¬ Nat.isValidChar (((hexDigitVal h1 * 16 + hexDigitVal h2) * 16
          + hexDigitVal h3) * 16 + hexDigitVal h4) →
      decode ('*' :: '*' :: h1 :: h2 :: h3 :: h4 :: rest)
        = .error (.invalidEscapeSequence [h1, h2, h3, h4])) ∧
    (∀ h1 h2 h3 h4 rest, isAsciiHexdigit h1 = false →
      decode ('*' :: '*' :: h1 :: h2 :: h3 :: h4 :: rest)
        = .error (.unexpectedCharacter h1 none)) ∧
    (∀ h1 h2 h3 h4 rest, isAsciiHexdigit h1 = true → isAsciiHexdigit h2 = false →
      decode ('*' :: '*' :: h1 :: h2 :: h3 :: h4 :: rest)
        = .error (.unexpectedCharacter h2 none)) ∧
    (∀ h1 h2 h3 h4 rest, isAsciiHexdigit h1 = true → isAsciiHexdigit h2 = true →
      isAsciiHexdigit h3 = false →
      decode ('*' :: '*' :: h1 :: h2 :: h3 :: h4 :: rest)
        = .error (.unexpectedCharacter h3 none)) ∧
    (∀ h1 h2 h3 h4 rest, isAsciiHexdigit h1 = true → isAsciiHexdigit h2 = true →
      isAsciiHexdigit h3 = true → isAsciiHexdigit h4 = false →
      decode ('*' :: '*' :: h1 :: h2 :: h3 :: h4 :: rest)
        = .error (.unexpectedCharacter h4 none)) ∧
    (∀ c2 h2 rest, c2 ≠ '*' → isAsciiHexdigit c2 = false →
      decode ('*' :: c2 :: h2 :: rest) = .error (.unexpectedCharacter c2 none)) ∧
    (∀ c2 h2 rest, c2 ≠ '*' → isAsciiHexdigit c2 = true → isAsciiHexdigit h2 = false →
      decode ('*' :: c2 :: h2 :: rest) = .error (.unexpectedCharacter h2 none)) ∧
    decode ['*'] = .error .unexpectedEnd ∧
    (∀ c2, c2 ≠ '*' → decode ['*', c2] = .error .unexpectedEnd) ∧
    (∀ l, l.length < 4 → decode ('*' :: '*' :: l) = .error .unexpectedEnd) := by
  refine ⟨?_, ?_, ?_, ?_, ?_, ?_, ?_, ?_, ?_, ?_⟩
  · intro h1 h2 h3 h4 rest hh1 hh2 hh3 hh4 hcode
    rw [decode_star]
    simp only [decodeEscape]
    rw [if_pos trivial]
    rw [if_neg (by simp [hh1]), if_neg (by simp [hh2]), if_neg (by simp [hh3]),
      if_neg (by simp [hh4])]
    rw [charFromU32, dif_neg hcode]
  · intro h1 h2 h3 h4 rest hh1
    rw [decode_star]
    simp only [decodeEscape]
    rw [if_pos trivial]
    rw [if_pos (by simp [hh1])]
  · intro h1 h2 h3 h4 rest hh1 hh2
    rw [decode_star]
    simp only [decodeEscape]
    rw [if_pos trivial]
    rw [if_neg (by simp [hh1]), if_pos (by simp [hh2])]
  · intro h1 h2 h3 h4 rest hh1 hh2 hh3
    rw [decode_star]
    simp only [decodeEscape]
    rw [if_pos trivial]
    rw [if_neg (by simp [hh1]), if_neg (by simp [hh2]), if_pos (by simp [hh3])]
  · intro h1 h2 h3 h4 rest hh1 hh2 hh3 hh4
    rw [decode_star]
    simp only [decodeEscape]
    rw [if_pos trivial]
    rw [if_neg (by simp [hh1]), if_neg (by simp [hh2]), if_neg (by simp [hh3]),
      if_pos (by simp [hh4])]
  · intro c2 h2 rest hs hc2
    rw [decode_star]
    simp only [decodeEscape]
    rw [if_neg hs]
    rw [if_pos (by simp [hc2])]
  · intro c2 h2 rest hs hc2 hh2
    rw [decode_star]
    simp only [decodeEscape]
    rw [if_neg hs]
    rw [if_neg (by simp [hc2]), if_pos (by simp [hh2])]
  · rw [decode_star]
    rfl
  · intro c2 hs
    rw [decode_star]
    simp only [decodeEscape]
    rw [if_neg hs]
  · intro l hl
    rw [decode_star]
    match l with
    | [] => rfl
    | [a] => rfl
    | [a, b] => rfl
    | [a, b, c] => rfl
    | a :: b :: c :: d :: t =>
      exact absurd hl (by simp_arith)

/-- C7, witness: each clause of the amended statement at a concrete input. -/
theorem claim_C7_witness :
    decode ('*' :: '*' :: 'd' :: '8' :: '0' :: '0' :: [])
      = .error (.invalidEscapeSequence ['d', '8', '0', '0']) ∧
    decode ('*' :: '*' :: 'z' :: '0' :: '0' :: '0' :: [])
      = .error (.unexpectedCharacter 'z' none) ∧
    decode ('*' :: '*' :: '0' :: 'z' :: '0' :: '0' :: [])
      = .error (.unexpectedCharacter 'z' none) ∧
    decode ('*' :: '*' :: '0' :: '0' :: 'z' :: '0' :: [])
      = .error (.unexpectedCharacter 'z' none) ∧
    decode ('*' :: '*' :: '0' :: '0' :: '0' :: 'z' :: [])
      = .error (.unexpectedCharacter 'z' none) ∧
    decode ('*' :: 'z' :: '0' :: []) = .error (.unexpectedCharacter 'z' none) ∧
    decode ('*' :: '0' :: 'z' :: []) = .error (.unexpectedCharacter 'z' none) ∧
    decode ['*'] = .error .unexpectedEnd ∧
    decode ['*', '0'] = .error .unexpectedEnd ∧
    decode ('*' :: '*' :: ['0']) = .error .unexpectedEnd :=
  ⟨claim_C7_theorem.1 'd' '8' '0' '0' [] (by decide) (by decide) (by decide)
      (by decide) (by decide),
   claim_C7_theorem.2.1 'z' '0' '0' '0' [] (by decide),
   claim_C7_theorem.2.2.1 '0' 'z' '0' '0' [] (by decide) (by decide),
   claim_C7_theorem.2.2.2.1 '0' '0' 'z' '0' [] (by decide) (by decide) (by decide),
   claim_C7_theorem.2.2.2.2.1 '0' '0' '0' 'z' [] (by decide) (by decide) (by decide)
      (by decide),
   claim_C7_theorem.2.2.2.2.2.1 'z' '0' [] (by decide) (by decide),
   claim_C7_theorem.2.2.2.2.2.2.1 '0' 'z' [] (by decide) (by decide) (by decide),
   claim_C7_theorem.2.2.2.2.2.2.2.1,
   claim_C7_theorem.2.2.2.2.2.2.2.2.1 '0' (by decide),
   claim_C7_theorem.2.2.2.2.2.2.2.2.2 ['0'] (by decide)⟩

/-- The object loop and its ghost mirror take the same steps: same failures,
same panics, same fuel use, and on success the same remainder, with the map
being the `mapInsert` fold of the text-order pair sequence. -/
theorem parse_object_items_pairs : ∀ (fuel : Nat) (cs : Str)
    (acc ps0 : List (Str × JValue)),
    parse_object_items fuel cs (List.foldl (fun m kv => mapInsert m kv.1 kv.2) acc ps0)
      = match parse_object_pairs fuel cs ps0 with
        | .ok (ps, r) => .ok (List.foldl (fun m kv => mapInsert m kv.1 kv.2) acc ps, r)
        | .fail e => .fail e
        | .panicked => .panicked
        | .outOfFuel => .outOfFuel := by
  intro fuel
  induction fuel with
  | zero =>
    intro cs acc ps0
    rfl
  | succ f ih =>
    intro cs acc ps0
    rw [parse_object_items, parse_object_pairs]
    cases hdec : decode cs with
    | error e => rfl
    | ok kr =>
      obtain ⟨key, r1⟩ := kr
      cases hp1 : parse_one f r1 with
      | fail e => simp only [hp1]
      | panicked => simp only [hp1]
      | outOfFuel => simp only [hp1]
      | ok vr =>
        obtain ⟨v, r2⟩ := vr
        simp only [hp1]
        cases r2 with
        | nil => rfl
        | cons c r3 =>
          simp only []
          by_cases hc : c = '~'
          · rw [if_pos hc, if_pos hc]
            have hstep : mapInsert
                (List.foldl (fun m kv => mapInsert m kv.1 kv.2) acc ps0) key v
                = List.foldl (fun m kv => mapInsert m kv.1 kv.2) acc
                    (ps0 ++ [(key, v)]) := by
              simp
            rw [hstep]
            exact ih r3 acc (ps0 ++ [(key, v)])
          · by_cases hc2 : c = ')'
            · rw [if_neg hc, if_pos hc2, if_neg hc, if_pos hc2]
              simp
            · rw [if_neg hc, if_neg hc2, if_neg hc, if_neg hc2]

/-- Inserting a key makes lookup of that key yield the inserted value. -/
theorem lookupKey_mapInsert_eq (m : List (Str × JValue)) (k : Str) (v : JValue) :
    lookupKey (mapInsert m k v) k = some v := by
  induction m with
  | nil => simp [mapInsert, lookupKey]
  | cons kv rest ih =>
    obtain ⟨k1, v1⟩ := kv
    by_cases h : k1 = k
    · simp [mapInsert, lookupKey, h]
    · simp [mapInsert, lookupKey, h, ih]

/-- Inserting a different key leaves lookup unchanged. -/
theorem lookupKey_mapInsert_ne (m : List (Str × JValue)) (k k2 : Str)
    (v : JValue) (h : k2 ≠ k) :
    lookupKey (mapInsert m k2 v) k = lookupKey m k := by
  induction m with
  | nil => simp [mapInsert, lookupKey, h]
  | cons kv rest ih =>
    obtain ⟨k1, v1⟩ := kv
    by_cases h1 : k1 = k2
    · subst h1
      simp [mapInsert, lookupKey, h]
    · simp [mapInsert, lookupKey, h1, ih]

/-- Folding `mapInsert` over a pair sequence realizes last-write-wins:
lookup finds the last occurrence in the sequence, falling back to the
accumulator for keys the sequence never mentions. -/
theorem lookupKey_foldl (ps : List (Str × JValue)) :
    ∀ (acc : List (Str × JValue)) (k : Str),
    lookupKey (List.foldl (fun m kv => mapInsert m kv.1 kv.2) acc ps) k
      = match lastOcc k ps with
        | some v => some v
        | none => lookupKey acc k := by
  induction ps with
  | nil =>
    intro acc k
    rfl
  | cons kv tl ih =>
    intro acc k
    obtain ⟨k1, v1⟩ := kv
    rw [List.foldl_cons, ih]
    show _ = match lastOcc k ((k1, v1) :: tl) with
      | some v => some v
      | none => lookupKey acc k
    rw [lastOcc]
    cases hlast : lastOcc k tl with
    | some v => rfl
    | none =>
      by_cases hk : k1 = k
      · subst hk
        simp [lookupKey_mapInsert_eq]
      · simp only [if_neg hk]
        exact lookupKey_mapInsert_ne acc k k1 v1 hk

/-- C8: every well-formed nonempty object body parses successfully —
duplicate decoded keys included, since the loop never inspects earlier
keys before inserting — and in the resulting object every key maps to the
value of its last occurrence in the text.  Well-formedness of the body is
expressed by the ghost mirror `parse_object_pairs`, which takes exactly the
steps of the real loop but records the pair sequence in text order. -/
theorem claim_C8_theorem (body : Str) (a : Char) (t : Str)
    (ps : List (Str × JValue))
    (hb : body = a :: t) (ha1 : a ≠ '~') (ha2 : a ≠ ')')
    (hp : parse_object_pairs (body.length + 2) body [] = .ok (ps, [])) :
    ∃ m, deserialize ('~' :: '(' :: body) = .ok (.obj m) ∧
      ∀ k, lookupKey m k = lastOcc k ps := by
  have hitems := parse_object_items_pairs (body.length + 2) body [] []
  rw [hp] at hitems
  simp only [List.foldl_nil] at hitems
  refine ⟨List.foldl (fun m kv => mapInsert m kv.1 kv.2) [] ps, ?_, ?_⟩
  · have hlen : ('~' :: '(' :: body).length + 1 = (body.length + 2) + 1 := by
      simp
    unfold deserialize
    rw [hlen]
    rw [parse_one_obj_items _ hb ha1 ha2]
    rw [hitems]
  · intro k
    rw [lookupKey_foldl]
    cases lastOcc k ps <;> rfl

/-- C8, witness: in `~(a~1~b~2~a~3)` the decoded key `a` occurs twice (with
`b` between its occurrences); the parse succeeds and `a` maps to `3`, the
value of its last occurrence. -/
theorem claim_C8_witness :
    (∃ m, deserialize ('~' :: '(' :: ( "a~1~b~2~a~3)".toList)) = .ok (.obj m) ∧
      ∀ k, lookupKey m k = lastOcc k
        [(['a'], .num (.posInt 1)), (['b'], .num (.posInt 2)),
         (['a'], .num (.posInt 3))]) ∧
    lastOcc ['a'] [(['a'], JValue.num (.posInt 1)), (['b'], .num (.posInt 2)),
      (['a'], .num (.posInt 3))] = some (.num (.posInt 3)) :=
  ⟨claim_C8_theorem ( "a~1~b~2~a~3)".toList) 'a' ( "~1~b~2~a~3)".toList)
    [(['a'], .num (.posInt 1)), (['b'], .num (.posInt 2)), (['a'], .num (.posInt 3))]
    (by decide) (by decide) (by decide)
    (by simp [parse_object_pairs, parse_one, decode, decodeEscape, prependD, readRun,
      finalizeBare, parseNumber, spanDigits, validIntPart, digitsToNat]),
   by simp [lastOcc]⟩

/-- C9, witness helper is below; the theorem: whenever `deserialize` succeeds,
every number contained anywhere in the result is finite.  (The number parsing
itself is modelled from the spec, since `serde_json`'s parser is an external
dependency; see `parseNumber`.) -/
theorem claim_C9_theorem : ∀ (s : Str) (v : JValue),
    deserialize s = .ok v → allNumsFinite v = true := by
  intro s v h
  unfold deserialize at h
  repeat' split at h
  all_goals (try cases h)
  exact (parse_finite _).1 _ _ _ (by assumption)

/-- C9, witness: a successful parse containing a number, with the finiteness
conclusion instantiated. -/
theorem claim_C9_witness :
    deserialize ( "~42".toList) = .ok (.num (.posInt 42)) ∧
    allNumsFinite (.num (.posInt 42)) = true :=
  ⟨by simp [deserialize, parse_one, readRun, finalizeBare, parseNumber, spanDigits,
      validIntPart, digitsToNat],
   claim_C9_theorem ( "~42".toList) (.num (.posInt 42))
     (by simp [deserialize, parse_one, readRun, finalizeBare, parseNumber, spanDigits,
       validIntPart, digitsToNat])⟩

/-- C10, counterexample: replacing the (lowercase) hex digits of an escape by
their uppercase equivalents does not always leave the decode result
unchanged — a surrogate escape fails either way, but the
invalid-escape-sequence error carries the digits as written, so the two
results differ. -/
theorem claim_C10_counterexample :
    decode ( "**D800".toList) = .error (.invalidEscapeSequence ['D', '8', '0', '0']) ∧
    decode ( "**d800".toList) = .error (.invalidEscapeSequence ['d', '8', '0', '0']) ∧
    decode ( "**D800".toList) ≠ decode ( "**d800".toList) := by
  refine ⟨?_, ?_, ?_⟩ <;>
    simp [decode, decodeEscape, isAsciiHexdigit, hexDigitVal, charFromU32,
      Nat.isValidChar]

/-- C10, amended: the decoder accepts uppercase hex digits although the
encoder only emits lowercase: `*2A` decodes to `*`; a two-digit escape decodes
identically with uppercase digits; a four-digit escape denoting a valid
scalar value decodes identically with uppercase digits; and a four-digit
escape denoting an invalid scalar fails with an invalid-escape-sequence
error either way, each carrying its digits as written. -/
theorem claim_C10_theorem :
    decode ( "*2A".toList) = .ok (['*'], []) ∧
    (∀ d1 d2 t, d1 < 16 → d2 < 16 →
      decode ('*' :: hexDigitUpper d1 :: hexDigitUpper d2 :: t)
        = decode ('*' :: hexDigit d1 :: hexDigit d2 :: t)) ∧
    (∀ d1 d2 d3 d4 t, d1 < 16 → d2 < 16 → d3 < 16 → d4 < 16 →
      Nat.isValidChar (((d1 * 16 + d2) * 16 + d3) * 16 + d4) →
      decode ('*' :: '*' :: hexDigitUpper d1 :: hexDigitUpper d2 :: hexDigitUpper d3
          :: hexDigitUpper d4 :: t)
        = decode ('*' :: '*' :: hexDigit d1 :: hexDigit d2 :: hexDigit d3
          :: hexDigit d4 :: t)) ∧
    (∀ d1 d2 d3 d4 t, d1 < 16 → d2 < 16 → d3 < 16 → d4 < 16 →
      ¬ Nat.isValidChar (((d1 * 16 + d2) * 16 + d3) * 16 + d4) →
      decode ('*' :: '*' :: hexDigitUpper d1 :: hexDigitUpper d2 :: hexDigitUpper d3
          :: hexDigitUpper d4 :: t)
        = .error (.invalidEscapeSequence [hexDigitUpper d1, hexDigitUpper d2,
            hexDigitUpper d3, hexDigitUpper d4]) ∧
      decode ('*' :: '*' :: hexDigit d1 :: hexDigit d2 :: hexDigit d3
          :: hexDigit d4 :: t)
        = .error (.invalidEscapeSequence [hexDigit d1, hexDigit d2,
            hexDigit d3, hexDigit d4])) := by
  refine ⟨?_, ?_, ?_, ?_⟩
  · simp [decode, decodeEscape, prependD, charFromU32, hexDigitVal, isAsciiHexdigit,
      Nat.isValidChar]
  · intro d1 d2 t hd1 hd2
    have hu1 := hexDigitUpper_facts d1 hd1
    have hu2 := hexDigitUpper_facts d2 hd2
    have hl1 := hexDigit_facts d1 hd1
    have hl2 := hexDigit_facts d2 hd2
    rw [decode_star, decode_star]
    simp only [decodeEscape]
    rw [if_neg hu1.2.2, if_neg hl1.2.2.1]
    rw [if_neg (by simp [hu1.1]), if_neg (by simp [hu2.1]),
      if_neg (by simp [hl1.1]), if_neg (by simp [hl2.1])]
    rw [hu1.2.1, hu2.2.1, hl1.2.1, hl2.2.1]
    have hv : Nat.isValidChar (d1 * 16 + d2) := Or.inl (by omega)
    rw [charFromU32, dif_pos hv]
  · intro d1 d2 d3 d4 t hd1 hd2 hd3 hd4 hvalid
    have hu1 := hexDigitUpper_facts d1 hd1
    have hu2 := hexDigitUpper_facts d2 hd2
    have hu3 := hexDigitUpper_facts d3 hd3
    have hu4 := hexDigitUpper_facts d4 hd4
    have hl1 := hexDigit_facts d1 hd1
    have hl2 := hexDigit_facts d2 hd2
    have hl3 := hexDigit_facts d3 hd3
    have hl4 := hexDigit_facts d4 hd4
    rw [decode_star, decode_star]
    simp only [decodeEscape]
    rw [if_pos trivial, if_pos trivial]
    rw [if_neg (by simp [hu1.1]), if_neg (by simp [hu2.1]),
      if_neg (by simp [hu3.1]), if_neg (by simp [hu4.1]),
      if_neg (by simp [hl1.1]), if_neg (by simp [hl2.1]),
      if_neg (by simp [hl3.1]), if_neg (by simp [hl4.1])]
    rw [hu1.2.1, hu2.2.1, hu3.2.1, hu4.2.1, hl1.2.1, hl2.2.1, hl3.2.1, hl4.2.1]
    rw [charFromU32, dif_pos hvalid]
  · intro d1 d2 d3 d4 t hd1 hd2 hd3 hd4 hvalid
    have hu1 := hexDigitUpper_facts d1 hd1
    have hu2 := hexDigitUpper_facts d2 hd2
    have hu3 := hexDigitUpper_facts d3 hd3
    have hu4 := hexDigitUpper_facts d4 hd4
    have hl1 := hexDigit_facts d1 hd1
    have hl2 := hexDigit_facts d2 hd2
    have hl3 := hexDigit_facts d3 hd3
    have hl4 := hexDigit_facts d4 hd4
    constructor <;>
    · rw [decode_star]
      simp only [decodeEscape]
      rw [if_pos trivial]
      first
        | rw [if_neg (by simp [hu1.1]), if_neg (by simp [hu2.1]),
            if_neg (by simp [hu3.1]), if_neg (by simp [hu4.1]),
            hu1.2.1, hu2.2.1, hu3.2.1, hu4.2.1, charFromU32, dif_neg hvalid]
        | rw [if_neg (by simp [hl1.1]), if_neg (by simp [hl2.1]),
            if_neg (by simp [hl3.1]), if_neg (by simp [hl4.1]),
            hl1.2.1, hl2.2.1, hl3.2.1, hl4.2.1, charFromU32, dif_neg hvalid]

/-- C10, witness: the amended statement's quantified clauses at concrete
digits. -/
theorem claim_C10_witness :
    decode ('*' :: hexDigitUpper 2 :: hexDigitUpper 10 :: [])
      = decode ('*' :: hexDigit 2 :: hexDigit 10 :: []) ∧
    decode ('*' :: '*' :: hexDigitUpper 2 :: hexDigitUpper 0 :: hexDigitUpper 3
        :: hexDigitUpper 12 :: [])
      = decode ('*' :: '*' :: hexDigit 2 :: hexDigit 0 :: hexDigit 3
        :: hexDigit 12 :: []) ∧
    decode ('*' :: '*' :: hexDigitUpper 13 :: hexDigitUpper 8 :: hexDigitUpper 0
        :: hexDigitUpper 0 :: [])
      = .error (.invalidEscapeSequence [hexDigitUpper 13, hexDigitUpper 8,
          hexDigitUpper 0, hexDigitUpper 0]) :=
  ⟨claim_C10_theorem.2.1 2 10 [] (by decide) (by decide),
   claim_C10_theorem.2.2.1 2 0 3 12 [] (by decide) (by decide) (by decide) (by decide)
     (by decide),
   (claim_C10_theorem.2.2.2 13 8 0 0 [] (by decide) (by decide) (by decide) (by decide)
     (by decide)).1⟩

end Jsurl
